import Mathlib

/-! Receipt processor: scoring engine and registry.

A shallow embedding of `main.go` (package `main`): the types `Receipt` and
`Item`, the two in-memory stores, the handlers `processReceipt` and
`getPoints`, and the scoring function `calculatePoints`.

The Go standard-library functions that `calculatePoints` calls are modelled
from their documented behaviour, each in a namespace named after its package:
`strconv.ParseFloat`, `math.Mod`, `math.Ceil`, `strings.TrimSpace`,
`unicode.IsSpace`, `time.Parse` (for the two layouts used) and the regular
expression `[a-zA-Z0-9]`.

Conventions.
* Go strings reach `calculatePoints` only through `encoding/json`, which
  yields valid UTF-8; they are Lean `String`s, `len` is `String.utf8ByteSize`.
* Go `int` is the 64-bit two's-complement integer: an `Int` kept in range by
  `wrapInt` after every addition and multiplication.
* Go `float64` is IEEE-754 binary64: `Float64` below, with exact arithmetic on
  natural-number mantissas and round-to-nearest-even done by `Float64.ofFrac`.
-/

namespace GoInt

/-- Wrap-around of an integer into the range of a Go `int` (64 bits, two's complement). -/
def wrapInt (x : Int) : Int := (x + 2 ^ 63) % 2 ^ 64 - 2 ^ 63

/-- The least value of a Go `int`. -/
def minInt : Int := -(2 ^ 63)

/-- The greatest value of a Go `int`. -/
def maxInt : Int := 2 ^ 63 - 1

end GoInt

open GoInt

/-! ## IEEE-754 binary64 -/

/-- A `float64` value. `finite neg m e` stands for `(-1)^neg * m * 2^e`; the
functions below only build finite values that binary64 can represent, and
compare finite values by what they stand for, so the same number may appear
with different `(m, e)`. -/
inductive Float64 where
  | finite (neg : Bool) (m : Nat) (e : Int)
  | inf (neg : Bool)
  | nan
  deriving DecidableEq, Repr

namespace Float64

/-- Number of binary digits of a natural number, by halving (`fuel` bounds the steps). -/
def bitLenAux : Nat → Nat → Nat
  | 0, _ => 0
  | fuel + 1, n => if n = 0 then 0 else 1 + bitLenAux fuel (n / 2)

/-- Number of binary digits of `n`: the least `k` with `n < 2^k`. -/
def bitLen (n : Nat) : Nat := bitLenAux n n

/-- Numerator of `(num/den) / 2^e` over the denominator `scaleDen den e`. -/
def scaleNum (num : Nat) (e : Int) : Nat := if e < 0 then num * 2 ^ (-e).toNat else num

/-- Denominator of `(num/den) / 2^e` under the numerator `scaleNum num e`. -/
def scaleDen (den : Nat) (e : Int) : Nat := if e < 0 then den else den * 2 ^ e.toNat

/-- The integer nearest to `N / D`, ties going to the even one. -/
def roundHalfEven (N D : Nat) : Nat :=
  let q := N / D
  let r := N % D
  if 2 * r < D then q
  else if D < 2 * r then q + 1
  else if q % 2 = 0 then q else q + 1

/-- The binary exponent at which `num/den` is rounded: the one that puts the
quotient in `[2^52, 2^53)`, or `-1074` (the subnormal exponent) when that
would be lower. -/
def chooseExp (num den : Nat) : Int :=
  let e0 : Int := max ((bitLen num : Int) - (bitLen den : Int) - 53) (-1074)
  if 2 ^ 53 ≤ scaleNum num e0 / scaleDen den e0 then e0 + 1 else e0

/-- The binary64 value nearest to `(-1)^neg * num/den` (`den ≠ 0`), ties to
even; a magnitude that rounds to `2^1024` or more gives an infinity. -/
def ofFrac (neg : Bool) (num den : Nat) : Float64 :=
  if num = 0 then finite neg 0 (-1074)
  else
    let e := chooseExp num den
    let m := roundHalfEven (scaleNum num e) (scaleDen den e)
    let e1 := if m = 2 ^ 53 then e + 1 else e
    let m1 := if m = 2 ^ 53 then 2 ^ 52 else m
    if 971 < e1 then inf neg else finite neg m1 e1

/-- Whether the value is an infinity. -/
def isInf : Float64 → Bool
  | inf _ => true
  | _ => false

/-- The magnitudes `m1 * 2^e1` and `m2 * 2^e2` brought to the common exponent `min e1 e2`. -/
def align (m1 : Nat) (e1 : Int) (m2 : Nat) (e2 : Int) : Nat × Nat :=
  let e := min e1 e2
  (m1 * 2 ^ (e1 - e).toNat, m2 * 2 ^ (e2 - e).toNat)

/-- Go's `==` on `float64`: NaN equals nothing, `-0 == 0`. -/
def eq : Float64 → Float64 → Bool
  | finite n1 m1 e1, finite n2 m2 e2 =>
    if m1 = 0 ∧ m2 = 0 then true
    else if n1 = n2 then (align m1 e1 m2 e2).1 = (align m1 e1 m2 e2).2 else false
  | inf n1, inf n2 => n1 = n2
  | _, _ => false

/-- Go's conversion `int(f)`: the fraction is discarded (truncation towards
zero). For NaN, the infinities and values outside the range of `int` the Go
specification leaves the result to the implementation; this is what amd64
gives (`CVTTSD2SQ` returns `0x8000000000000000`). -/
def toInt : Float64 → Int
  | finite neg m e =>
    let mag : Nat := if e < 0 then m / 2 ^ (-e).toNat else m * 2 ^ e.toNat
    let v : Int := if neg then -(mag : Int) else (mag : Int)
    if minInt ≤ v ∧ v ≤ maxInt then v else minInt
  | _ => minInt

/-- Go's conversion `float64(i)` of an `int`: the nearest binary64 value. -/
def ofInt (i : Int) : Float64 := ofFrac (decide (i < 0)) i.natAbs 1

/-- Go's `*` on `float64`: the exact product rounded to nearest even. -/
def mul : Float64 → Float64 → Float64
  | finite n1 m1 e1, finite n2 m2 e2 =>
    let e := e1 + e2
    ofFrac (n1 != n2) (scaleNum (m1 * m2) (-e)) (scaleDen 1 (-e))
  | finite n1 m1 _, inf n2 => if m1 = 0 then nan else inf (n1 != n2)
  | inf n1, finite n2 m2 _ => if m2 = 0 then nan else inf (n1 != n2)
  | inf n1, inf n2 => inf (n1 != n2)
  | _, _ => nan

/-- The constant `0.25` as a `float64`. -/
def quarter : Float64 := ofFrac false 25 100

/-- The constant `0.2` as a `float64` (the nearest binary64 value, not one fifth). -/
def fifth : Float64 := ofFrac false 2 10

/-- The constant `0` as a `float64`. -/
def zero : Float64 := finite false 0 (-1074)

end Float64

namespace math

open Float64

/-- Go's `math.Mod(x, y)`: the floating-point remainder of `x/y`, with the
sign of `x` and magnitude below `|y|`; it is exact. Special cases as
documented: NaN when `x` is infinite or NaN, or `y` is zero or NaN; `x` when
`y` is infinite. -/
def Mod : Float64 → Float64 → Float64
  | finite n1 m1 e1, finite _ m2 e2 =>
    if m2 = 0 then nan
    else finite n1 ((align m1 e1 m2 e2).1 % (align m1 e1 m2 e2).2) (min e1 e2)
  | finite n1 m1 e1, inf _ => finite n1 m1 e1
  | _, _ => nan

/-- Go's `math.Ceil(x)`: the least integer value greater than or equal to
`x`; `±0`, `±Inf` and NaN are returned unchanged. -/
def Ceil : Float64 → Float64
  | finite neg m e =>
    if e < 0 then
      let q := m / 2 ^ (-e).toNat
      let r := m % 2 ^ (-e).toNat
      if r = 0 then finite neg m e
      else if neg then finite true q 0
      else finite false (q + 1) 0
    else finite neg m e
  | x => x

end math

/-! ## `strconv.ParseFloat` -/

namespace strconv

open Float64

/-- The two errors of `strconv.ParseFloat`. -/
inductive NumError where
  | ErrSyntax
  | ErrRange
  deriving DecidableEq, Repr

/-- Value of a decimal digit character. -/
def digitVal (c : Char) : Nat := c.toNat - '0'.toNat

/-- Value of a hexadecimal letter `a`-`f` or `A`-`F`, if `c` is one. -/
def hexLetterVal (c : Char) : Option Nat :=
  if 'a' ≤ c ∧ c ≤ 'f' then some (c.toNat - 'a'.toNat + 10)
  else if 'A' ≤ c ∧ c ≤ 'F' then some (c.toNat - 'A'.toNat + 10)
  else none

/-- Go's `commonPrefixLenIgnoreCase(s, pre)`: length of the longest common
start of `s` and `pre`, upper-case ASCII letters of `s` taken as lower-case
(`pre` is lower-case). -/
def commonLenIgnoreCase : List Char → List Char → Nat
  | c :: cs, p :: ps =>
    let c1 := if 'A' ≤ c ∧ c ≤ 'Z' then Char.ofNat (c.toNat + 32) else c
    if c1 = p then 1 + commonLenIgnoreCase cs ps else 0
  | _, _ => 0

/-- Go's `special(s)`: the value and the number of characters read when `s`
starts with a possibly signed `inf` / `infinity` or with `nan`, case ignored. -/
def special (s : List Char) : Option (Float64 × Nat) :=
  let infinity := "infinity".toList
  let readInf (neg : Bool) (nsign : Nat) (t : List Char) : Option (Float64 × Nat) :=
    let n := commonLenIgnoreCase t infinity
    let n := if 3 < n ∧ n < 8 then 3 else n
    if n = 3 ∨ n = 8 then some (inf neg, nsign + n) else none
  match s with
  | [] => none
  | c :: cs =>
    if c = '+' then readInf false 1 cs
    else if c = '-' then readInf true 1 cs
    else if c = 'i' ∨ c = 'I' then readInf false 0 (c :: cs)
    else if c = 'n' ∨ c = 'N' then
      if commonLenIgnoreCase (c :: cs) "nan".toList = 3 then some (nan, 3) else none
    else none

/-- What the digit loop of `readFloat` has seen so far. `mant` holds every
digit read, as a number in the base (Go keeps the first 19 and a flag that
more followed, and rounds the full decimal all the same). -/
structure Digits where
  sawdot : Bool
  sawdigits : Bool
  underscores : Bool
  mant : Nat
  fracDigits : Nat
  deriving Repr

/-- The digit loop of `readFloat`: underscores, one dot, decimal digits and,
in base 16, hexadecimal letters; it stops at the first other character and
returns what is left. -/
def readDigits (hex : Bool) : List Char → Digits → Digits × List Char
  | [], st => (st, [])
  | c :: cs, st =>
    let base : Nat := if hex then 16 else 10
    let frac : Nat := if st.sawdot then st.fracDigits + 1 else st.fracDigits
    if c = '_' then readDigits hex cs { st with underscores := true }
    else if c = '.' then
      if st.sawdot then (st, c :: cs) else readDigits hex cs { st with sawdot := true }
    else if '0' ≤ c ∧ c ≤ '9' then
      readDigits hex cs
        { st with sawdigits := true, mant := st.mant * base + digitVal c, fracDigits := frac }
    else if hex ∧ (hexLetterVal c).isSome then
      readDigits hex cs
        { st with sawdigits := true, mant := st.mant * base + (hexLetterVal c).getD 0, fracDigits := frac }
    else (st, c :: cs)

/-- The exponent loop of `readFloat`: digits and underscores; the exponent
stops growing once it has reached 10000. -/
def readExpDigits : List Char → Nat → Bool → Nat × Bool × List Char
  | [], e, u => (e, u, [])
  | c :: cs, e, u =>
    if '0' ≤ c ∧ c ≤ '9' then readExpDigits cs (if e < 10000 then e * 10 + digitVal c else e) u
    else if c = '_' then readExpDigits cs e true
    else (e, u, c :: cs)

/-- The loop of Go's `underscoreOK`; `saw` is the kind of the last character:
`'0'` a digit (or the base prefix), `'_'` an underscore, `'!'` anything else,
`'^'` the start. -/
def underscoreOKLoop (hex : Bool) : List Char → Char → Bool
  | [], saw => saw != '_'
  | c :: cs, saw =>
    if ('0' ≤ c ∧ c ≤ '9') ∨ (hex ∧ (hexLetterVal c).isSome) then underscoreOKLoop hex cs '0'
    else if c = '_' then
      if saw != '0' then false else underscoreOKLoop hex cs '_'
    else if saw = '_' then false
    else underscoreOKLoop hex cs '!'

/-- Go's `underscoreOK(s)`: underscores only between digits, or between a
base prefix and a digit. -/
def underscoreOK (s : List Char) : Bool :=
  let s := match s with
    | c :: cs => if c = '-' ∨ c = '+' then cs else c :: cs
    | [] => []
  match s with
  | '0' :: c :: cs =>
    if c = 'b' ∨ c = 'B' ∨ c = 'o' ∨ c = 'O' ∨ c = 'x' ∨ c = 'X' then
      underscoreOKLoop (c = 'x' ∨ c = 'X') cs '0'
    else underscoreOKLoop false s '^'
  | _ => underscoreOKLoop false s '^'

/-- Result of `readFloat`: the number read is
`(-1)^neg * mant * 10^exp`, or `(-1)^neg * mant * 2^exp` when `hex`; `rest` is
the text not read. -/
structure ReadFloat where
  neg : Bool
  hex : Bool
  mant : Nat
  exp : Int
  rest : List Char
  deriving Repr

/-- The optional sign at the start of `readFloat`: whether it is `-`, and the text after it. -/
def readSign : List Char → Bool × List Char
  | '+' :: cs => (false, cs)
  | '-' :: cs => (true, cs)
  | s => (false, s)

/-- The optional base prefix of `readFloat`: `0x` or `0X` followed by at
least one more character selects base 16; the text after the prefix. -/
def readBase : List Char → Bool × List Char
  | '0' :: x :: c :: cs => if x = 'x' ∨ x = 'X' then (true, c :: cs) else (false, '0' :: x :: c :: cs)
  | s => (false, s)

/-- The end of `readFloat`: the check of the underscores in the text read,
`s` being the whole text and `rest` what is left of it. -/
def readFinish (s : List Char) (neg hex : Bool) (mant : Nat) (exp : Int) (underscores : Bool)
    (rest : List Char) : Option ReadFloat :=
  if underscores ∧ ¬ underscoreOK (s.take (s.length - rest.length)) then none
  else some ⟨neg, hex, mant, exp, rest⟩

/-- The exponent of `readFloat` after its letter and sign: at least one
digit, added to the position `dp` of the point with the sign `esign`. -/
def readExponent (s : List Char) (neg hex : Bool) (d : Digits) (dp : Int) (esign : Int)
    (t : List Char) : Option ReadFloat :=
  match t with
  | [] => none
  | c :: _ =>
    if '0' ≤ c ∧ c ≤ '9' then
      readFinish s neg hex d.mant (dp + ((readExpDigits t 0 d.underscores).1 : Int) * esign)
        (readExpDigits t 0 d.underscores).2.1 (readExpDigits t 0 d.underscores).2.2
    else none

/-- Go's `readFloat(s)`: sign, mantissa, exponent; `none` where Go returns `ok = false`. -/
def readFloat (s : List Char) : Option ReadFloat :=
  let neg := (readSign s).1
  let s1 := (readSign s).2
  let hex := (readBase s1).1
  let s2 := (readBase s1).2
  let d := (readDigits hex s2 ⟨false, false, false, 0, 0⟩).1
  let s3 := (readDigits hex s2 ⟨false, false, false, 0, 0⟩).2
  if ¬ d.sawdigits then none
  else
    let dp : Int := if hex then -(4 * d.fracDigits : Int) else -(d.fracDigits : Int)
    match s3 with
    | c :: cs =>
      if (¬ hex ∧ (c = 'e' ∨ c = 'E')) ∨ (hex ∧ (c = 'p' ∨ c = 'P')) then
        match cs with
        | [] => none
        | '+' :: t => readExponent s neg hex d dp 1 t
        | '-' :: t => readExponent s neg hex d dp (-1) t
        | _ => readExponent s neg hex d dp 1 cs
      else if hex then none
      else readFinish s neg hex d.mant dp d.underscores s3
    | [] => if hex then none else readFinish s neg hex d.mant dp d.underscores s3

/-- The binary64 value nearest to `(-1)^neg * mant * base^exp`. -/
def toFloat (neg : Bool) (mant : Nat) (base : Nat) (exp : Int) : Float64 :=
  if exp < 0 then ofFrac neg mant (base ^ (-exp).toNat) else ofFrac neg (mant * base ^ exp.toNat) 1

/-- Go's `strconv.ParseFloat(s, 64)`: decimal and hexadecimal floating-point
text, `inf`, `infinity` and `nan`; the result is the nearest binary64 value
(IEEE-754 round to nearest even). Text that is not a number gives
`(0, ErrSyntax)`; a number too large for binary64 gives `(±Inf, ErrRange)`. -/
def ParseFloat (s : String) : Float64 × Option NumError :=
  let cs := s.toList
  match special cs with
  | some (v, n) => if n = cs.length then (v, none) else (zero, some NumError.ErrSyntax)
  | none =>
    match readFloat cs with
    | none => (zero, some NumError.ErrSyntax)
    | some r =>
      if r.rest ≠ [] then (zero, some NumError.ErrSyntax)
      else
        let f := toFloat r.neg r.mant (if r.hex then 2 else 10) r.exp
        (f, if f.isInf then some NumError.ErrRange else none)

end strconv

/-! ## `strings.TrimSpace`, the retailer pattern, `time.Parse` -/

namespace unicode

/-- Go's `unicode.IsSpace`: the characters with the Unicode White Space property. -/
def IsSpace (c : Char) : Bool :=
  let n := c.toNat
  (0x09 ≤ n ∧ n ≤ 0x0D) ∨ n = 0x20 ∨ n = 0x85 ∨ n = 0xA0 ∨ n = 0x1680 ∨
    (0x2000 ≤ n ∧ n ≤ 0x200A) ∨ n = 0x2028 ∨ n = 0x2029 ∨ n = 0x202F ∨ n = 0x205F ∨ n = 0x3000

end unicode

namespace strings

/-- Go's `strings.TrimSpace(s)`: `s` without its leading and trailing white space. -/
def TrimSpace (s : String) : String :=
  ⟨((s.toList.dropWhile unicode.IsSpace).reverse.dropWhile unicode.IsSpace).reverse⟩

end strings

namespace regexp

/-- Whether `c` matches the pattern `[a-zA-Z0-9]`. -/
def matchesAlnum (c : Char) : Bool :=
  ('a' ≤ c ∧ c ≤ 'z') ∨ ('A' ≤ c ∧ c ≤ 'Z') ∨ ('0' ≤ c ∧ c ≤ '9')

/-- The result of `FindAllString(s, -1)` for the pattern `[a-zA-Z0-9]`: every
match is one character, so the matches are the matching characters in order. -/
def FindAllString (s : String) : List String :=
  (s.toList.filter matchesAlnum).map fun c => String.singleton c

end regexp

namespace time

/-- Go's `isDigit(s, 0)` on the first character. -/
def isDigit (c : Char) : Bool := '0' ≤ c ∧ c ≤ '9'

/-- Go's `getnum(s, fixed)`: a number of one or two digits at the start of
`s` (exactly two when `fixed`), and the rest of `s`. -/
def getnum (s : List Char) (fixed : Bool) : Option (Nat × List Char) :=
  match s with
  | a :: b :: rest =>
    if ¬ isDigit a then none
    else if ¬ isDigit b then
      if fixed then none else some (strconv.digitVal a, b :: rest)
    else some (strconv.digitVal a * 10 + strconv.digitVal b, rest)
  | [a] => if isDigit a ∧ ¬ fixed then some (strconv.digitVal a, []) else none
  | [] => none

/-- Go's `isLeap(year)`. -/
def isLeap (year : Nat) : Bool := year % 4 = 0 ∧ (year % 100 ≠ 0 ∨ year % 400 = 0)

/-- Go's `daysIn(month, year)`. -/
def daysIn (month year : Nat) : Nat :=
  if month = 2 then (if isLeap year then 29 else 28)
  else if month = 4 ∨ month = 6 ∨ month = 9 ∨ month = 11 then 30
  else 31

/-- A parsed date. -/
structure Date where
  year : Nat
  month : Nat
  day : Nat
  deriving DecidableEq, Repr

/-- A parsed time of day. -/
structure Clock where
  hour : Nat
  minute : Nat
  deriving DecidableEq, Repr

/-- Go's `time.Parse("2006-01-02", value)`: four digits, `-`, two digits for
a month from 1 to 12, `-`, two digits for a day that exists in that month,
and nothing more; `none` is an error. -/
def ParseDate (value : String) : Option Date :=
  match value.toList with
  | y1 :: y2 :: y3 :: y4 :: rest =>
    if ¬ (isDigit y1 ∧ isDigit y2 ∧ isDigit y3 ∧ isDigit y4) then none
    else
      let year := ((strconv.digitVal y1 * 10 + strconv.digitVal y2) * 10 + strconv.digitVal y3) * 10
        + strconv.digitVal y4
      match rest with
      | '-' :: rest1 =>
        match getnum rest1 true with
        | none => none
        | some (month, rest2) =>
          if month = 0 ∨ 12 < month then none
          else
            match rest2 with
            | '-' :: rest3 =>
              match getnum rest3 true with
              | none => none
              | some (day, rest4) =>
                if rest4 ≠ [] then none
                else if day < 1 ∨ daysIn month year < day then none
                else some ⟨year, month, day⟩
            | _ => none
      | _ => none
  | _ => none

/-- Go's `time.Parse("15:04", value)`: one or two digits for an hour below
24, `:`, two digits for a minute below 60, and nothing more; `none` is an error. -/
def ParseClock (value : String) : Option Clock :=
  match getnum value.toList false with
  | none => none
  | some (hour, rest) =>
    if 24 ≤ hour then none
    else
      match rest with
      | ':' :: rest1 =>
        match getnum rest1 true with
        | none => none
        | some (minute, rest2) =>
          if 60 ≤ minute then none
          else if rest2 ≠ [] then none
          else some ⟨hour, minute⟩
      | _ => none

end time

/-! ## The program -/

/-- Item represents a purchased item with a short description and price. -/
structure Item where
  ShortDescription : String
  Price : String
  deriving DecidableEq, Repr

/-- Receipt represents a store receipt with retailer name, date, time, total, and items purchased. -/
structure Receipt where
  Retailer : String
  PurchaseDate : String
  PurchaseTime : String
  Total : String
  Items : List Item
  deriving DecidableEq, Repr

/-- ResponseID is used to return the generated receipt ID. -/
structure ResponseID where
  ID : String
  deriving DecidableEq, Repr

/-- ResponsePoints is used to return the awarded points for a receipt. -/
structure ResponsePoints where
  Points : Int
  deriving DecidableEq, Repr

/-- What a handler writes to its `http.ResponseWriter`: a JSON body, or
`http.Error` with a status code and a message. -/
inductive Response where
  | jsonID (body : ResponseID)
  | jsonPoints (body : ResponsePoints)
  | error (status : Nat) (message : String)
  deriving DecidableEq, Repr

/-- `http.StatusBadRequest`. -/
def StatusBadRequest : Nat := 400

/-- `http.StatusNotFound`. -/
def StatusNotFound : Nat := 404

/-- The two global maps `receiptStore` and `pointsStore`; a key without an
entry maps to `none`. -/
structure Stores where
  receiptStore : String → Option Receipt
  pointsStore : String → Option Int

/-- The stores at program start: both maps empty. -/
def Stores.empty : Stores := ⟨fun _ => none, fun _ => none⟩

/-- The map assignment `m[key] = value`. -/
def mapSet {α : Type} (m : String → Option α) (key : String) (value : α) : String → Option α :=
  fun k => if k = key then some value else m k

/-- The points one item adds in the Rule 5 loop when its description
qualifies: `int(math.Ceil(price * 0.2))`, the price being whatever
`strconv.ParseFloat` returned, its error ignored. -/
def itemPoints (item : Item) : Int :=
  let price := (strconv.ParseFloat item.Price).1
  Float64.toInt (math.Ceil (Float64.mul price Float64.fifth))

/-- The condition of the Rule 5 loop: `len(strings.TrimSpace(item.ShortDescription)) % 3 == 0`. -/
def itemQualifies (item : Item) : Bool :=
  (strings.TrimSpace item.ShortDescription).utf8ByteSize % 3 = 0

/-- The function calculatePoints applies the given rules to calculate points for a receipt. -/
def calculatePoints (receipt : Receipt) : Int :=
  let totalPoints : Int := 0
  -- Rule 1
  let totalPoints := wrapInt (totalPoints + ((regexp.FindAllString receipt.Retailer).length : Int))
  match strconv.ParseFloat receipt.Total with
  | (_, some _) => totalPoints
  | (totalAmount, none) =>
    -- Rule 2
    let totalPoints :=
      if Float64.eq totalAmount (Float64.ofInt (Float64.toInt totalAmount)) then wrapInt (totalPoints + 50)
      else totalPoints
    -- Rule 3
    let totalPoints :=
      if Float64.eq (math.Mod totalAmount Float64.quarter) Float64.zero then wrapInt (totalPoints + 25)
      else totalPoints
    -- Rule 4
    let totalPoints := wrapInt (totalPoints + wrapInt (((receipt.Items.length / 2 : Nat) : Int) * 5))
    -- Rule 5
    let totalPoints := receipt.Items.foldl
      (fun totalPoints item =>
        if itemQualifies item then wrapInt (totalPoints + itemPoints item) else totalPoints)
      totalPoints
    -- Rule 6
    let totalPoints :=
      match time.ParseDate receipt.PurchaseDate with
      | some purchaseDate => if purchaseDate.day % 2 ≠ 0 then wrapInt (totalPoints + 6) else totalPoints
      | none => totalPoints
    -- Rule 7
    let totalPoints :=
      match time.ParseClock receipt.PurchaseTime with
      | some purchaseTime => if purchaseTime.hour = 14 then wrapInt (totalPoints + 10) else totalPoints
      | none => totalPoints
    totalPoints

/-- The handler processReceipt stores a decoded receipt and its points under
a fresh ID. `decoded` is what `json.NewDecoder(r.Body).Decode(&receipt)`
produced (`none` when it returned an error), `receiptID` is
`uuid.New().String()`. -/
def processReceipt (st : Stores) (decoded : Option Receipt) (receiptID : String) :
    Stores × Response :=
  match decoded with
  | none => (st, Response.error StatusBadRequest "Invalid request payload")
  | some receipt =>
    let st1 : Stores := { st with receiptStore := mapSet st.receiptStore receiptID receipt }
    let st2 : Stores := { st1 with pointsStore := mapSet st1.pointsStore receiptID (calculatePoints receipt) }
    (st2, Response.jsonID ⟨receiptID⟩)

/-- The handler getPoints looks up the points stored under the ID of the
request path (`mux.Vars(r)["id"]`). -/
def getPoints (st : Stores) (receiptID : String) : Stores × Response :=
  match st.pointsStore receiptID with
  | some points => (st, Response.jsonPoints ⟨points⟩)
  | none => (st, Response.error StatusNotFound "No receipt found for that ID")

/-! ## Decimal numbers as the specification writes them -/

/-- The number a string of decimal digits stands for. -/
def digitsValue (ds : List Char) : Nat := ds.foldl (fun acc c => acc * 10 + strconv.digitVal c) 0

/-- Whether every character is a decimal digit `0`-`9`. -/
def allDigits (ds : List Char) : Bool := ds.all time.isDigit

/-- The text of the non-negative decimal number with the integer digits `ip`
and the fractional digits `fp`: `ip` alone when there is no fraction,
otherwise `ip`, a point, `fp`. Its value is
`digitsValue (ip ++ fp) / 10 ^ fp.length`. -/
def decimalText (ip fp : List Char) : String :=
  ⟨if fp = [] then ip else ip ++ '.' :: fp⟩

/-- A well-formed non-negative decimal number: at least one integer digit,
and nothing but digits. -/
def wellFormedDecimal (ip fp : List Char) : Bool :=
  !ip.isEmpty && allDigits ip && allDigits fp

/-- The purchase times the specification gives Rule 7 to: a valid 24-hour
`HH:MM` time whose hour is 14, that is `14:00` through `14:59`. -/
def isHour14 (purchaseTime : String) : Bool :=
  match purchaseTime.toList with
  | [h1, h2, colon, m1, m2] =>
    h1 = '1' && h2 = '4' && colon = ':' && time.isDigit m1 && time.isDigit m2 &&
      decide (strconv.digitVal m1 * 10 + strconv.digitVal m2 ≤ 59)
  | _ => false

/-- Days of a month in the Gregorian calendar (0 for a month that is not 1 to 12). -/
def calendarDaysIn (year month : Nat) : Nat :=
  let leap : Bool := year % 4 = 0 ∧ (year % 100 ≠ 0 ∨ year % 400 = 0)
  [31, if leap then 29 else 28, 31, 30, 31, 30, 31, 31, 30, 31, 30, 31].getD (month - 1) 0

/-- The purchase dates the specification gives Rule 6 to: a valid
`YYYY-MM-DD` calendar date whose day of the month is odd. -/
def isOddDayDate (purchaseDate : String) : Bool :=
  match purchaseDate.toList with
  | [y1, y2, y3, y4, dash1, m1, m2, dash2, d1, d2] =>
    let year := ((strconv.digitVal y1 * 10 + strconv.digitVal y2) * 10 + strconv.digitVal y3) * 10
      + strconv.digitVal y4
    let month := strconv.digitVal m1 * 10 + strconv.digitVal m2
    let day := strconv.digitVal d1 * 10 + strconv.digitVal d2
    allDigits [y1, y2, y3, y4, m1, m2, d1, d2] && dash1 = '-' && dash2 = '-' &&
      decide (1 ≤ month ∧ month ≤ 12) && decide (1 ≤ day ∧ day ≤ calendarDaysIn year month) &&
      decide (day % 2 = 1)
  | _ => false

/-- A monetary amount as the specification asks for it, below a bound: the
text of a well-formed non-negative decimal number with at most two fractional
digits whose value is less than `bound`. -/
def decimalBelow (text : String) (bound : Nat) : Prop :=
  ∃ ip fp : List Char, wellFormedDecimal ip fp = true ∧ fp.length ≤ 2 ∧
    text = decimalText ip fp ∧ digitsValue (ip ++ fp) < bound * 10 ^ fp.length

/-! ## The server -/

/-- A request on one of the two routes that `main` registers:
`POST /receipts/process`, with what the handler reads from it (the decoded
body and the fresh identifier), and `GET /receipts/{id}/points`. -/
inductive Request where
  | process (decoded : Option Receipt) (receiptID : String)
  | points (receiptID : String)

/-- The router of `main`: a request goes to the handler of its route. -/
def handle (st : Stores) : Request → Stores × Response
  | Request.process decoded receiptID => processReceipt st decoded receiptID
  | Request.points receiptID => getPoints st receiptID

/-- The stores after the requests have been handled one after another. -/
def serve (st : Stores) (requests : List Request) : Stores :=
  requests.foldl (fun s request => (handle s request).1) st

/-! ## The rules of `calculatePoints`, one by one -/

/-- Rule 1: one point per match of `[a-zA-Z0-9]` in the retailer name. -/
def rule1Points (retailer : String) : Int := ((regexp.FindAllString retailer).length : Int)

/-- Rule 2: 50 points when `totalAmount == float64(int(totalAmount))`. -/
def rule2Points (totalAmount : Float64) : Int :=
  if Float64.eq totalAmount (Float64.ofInt (Float64.toInt totalAmount)) then 50 else 0

/-- Rule 3: 25 points when `math.Mod(totalAmount, 0.25) == 0`. -/
def rule3Points (totalAmount : Float64) : Int :=
  if Float64.eq (math.Mod totalAmount Float64.quarter) Float64.zero then 25 else 0

/-- Rule 4: `(len(receipt.Items) / 2) * 5`. -/
def rule4Points (items : List Item) : Int := ((items.length / 2 : Nat) : Int) * 5

/-- Rule 5: the points of the items whose description qualifies, added up. -/
def rule5Points (items : List Item) : Int :=
  (items.map fun item => if itemQualifies item then itemPoints item else 0).sum

/-- Rule 6: 6 points when the purchase date parses and its day is odd. -/
def rule6Points (purchaseDate : String) : Int :=
  match time.ParseDate purchaseDate with
  | some purchaseDate => if purchaseDate.day % 2 ≠ 0 then 6 else 0
  | none => 0

/-- Rule 7: 10 points when the purchase time parses and its hour is 14. -/
def rule7Points (purchaseTime : String) : Int :=
  match time.ParseClock purchaseTime with
  | some purchaseTime => if purchaseTime.hour = 14 then 10 else 0
  | none => 0

/-! ## Integer wrap-around -/

theorem wrapInt_of_inRange (x : Int) (h1 : minInt ≤ x) (h2 : x ≤ maxInt) : wrapInt x = x := by
  unfold wrapInt
  unfold minInt at h1
  unfold maxInt at h2
  omega

theorem wrapInt_add_left (a b : Int) : wrapInt (wrapInt a + b) = wrapInt (a + b) := by
  unfold wrapInt
  omega

theorem wrapInt_add_right (a b : Int) : wrapInt (a + wrapInt b) = wrapInt (a + b) := by
  unfold wrapInt
  omega

theorem wrapInt_idem (a : Int) : wrapInt (wrapInt a) = wrapInt a := by
  unfold wrapInt
  omega

/-! ## `calculatePoints` as the wrapped sum of its rules -/

theorem foldl_rule5 (items : List Item) (acc : Int) :
    items.foldl
      (fun totalPoints item =>
        if itemQualifies item then wrapInt (totalPoints + itemPoints item) else totalPoints)
      (wrapInt acc) = wrapInt (acc + rule5Points items) := by
  induction items generalizing acc with
  | nil => simp [rule5Points]
  | cons item rest ih =>
    simp only [List.foldl_cons]
    by_cases hq : itemQualifies item = true
    · simp only [hq, if_true, wrapInt_add_left]
      rw [ih]
      simp [rule5Points, hq, add_assoc]
    · simp only [hq, Bool.false_eq_true, if_false]
      rw [ih]
      simp [rule5Points, hq]

theorem calculatePoints_of_error (r : Receipt) (h : (strconv.ParseFloat r.Total).2 ≠ none) :
    calculatePoints r = wrapInt (rule1Points r.Retailer) := by
  unfold calculatePoints
  rcases hp : strconv.ParseFloat r.Total with ⟨t, err⟩
  rw [hp] at h
  cases err with
  | none => exact absurd rfl h
  | some e => simp [rule1Points]

theorem calculatePoints_eq_sum (r : Receipt) (t : Float64)
    (h : strconv.ParseFloat r.Total = (t, none)) :
    calculatePoints r = wrapInt (rule1Points r.Retailer + rule2Points t + rule3Points t
      + rule4Points r.Items + rule5Points r.Items + rule6Points r.PurchaseDate
      + rule7Points r.PurchaseTime) := by
  unfold calculatePoints
  simp only [h, zero_add]
  have e2 : (if Float64.eq t (Float64.ofInt (Float64.toInt t)) = true
      then wrapInt (wrapInt (rule1Points r.Retailer) + 50) else wrapInt (rule1Points r.Retailer))
      = wrapInt (rule1Points r.Retailer + rule2Points t) := by
    unfold rule2Points
    split <;> simp [wrapInt_add_left]
  have e3 : (if Float64.eq (math.Mod t Float64.quarter) Float64.zero = true
      then wrapInt (wrapInt (rule1Points r.Retailer + rule2Points t) + 25)
      else wrapInt (rule1Points r.Retailer + rule2Points t))
      = wrapInt (rule1Points r.Retailer + rule2Points t + rule3Points t) := by
    unfold rule3Points
    split <;> simp [wrapInt_add_left]
  have e6 : ∀ a : Int, (match time.ParseDate r.PurchaseDate with
      | some purchaseDate => if purchaseDate.day % 2 ≠ 0 then wrapInt (wrapInt a + 6) else wrapInt a
      | none => wrapInt a) = wrapInt (a + rule6Points r.PurchaseDate) := by
    intro a
    unfold rule6Points
    split
    · split <;> simp [wrapInt_add_left]
    · simp
  have e7 : ∀ a : Int, (match time.ParseClock r.PurchaseTime with
      | some purchaseTime => if purchaseTime.hour = 14 then wrapInt (wrapInt a + 10) else wrapInt a
      | none => wrapInt a) = wrapInt (a + rule7Points r.PurchaseTime) := by
    intro a
    unfold rule7Points
    split
    · split <;> simp [wrapInt_add_left]
    · simp
  show (match time.ParseClock r.PurchaseTime with
      | some purchaseTime => if purchaseTime.hour = 14 then wrapInt (_ + 10) else _
      | none => _) = _
  rw [show ((regexp.FindAllString r.Retailer).length : Int) = rule1Points r.Retailer from rfl, e2, e3,
    wrapInt_add_left, wrapInt_add_right, foldl_rule5, e6, e7]
  rfl

/-! ## Rule 1 and the registry -/

theorem matchesAlnum_eq (c : Char) : regexp.matchesAlnum c = c.isAlphanum := by
  simp only [regexp.matchesAlnum, Char.isAlphanum, Char.isAlpha, Char.isUpper, Char.isLower,
    Char.isDigit, Char.le_def]
  rw [Bool.eq_iff_iff]
  simp only [Bool.decide_or, Bool.decide_and, Bool.or_eq_true, Bool.and_eq_true, decide_eq_true_eq,
    UInt32.le_def, ge_iff_le]
  constructor
  · rintro (h | h | h) <;> simp_all
  · rintro ((h | h) | h) <;> simp_all

theorem rule1Points_eq (retailer : String) :
    rule1Points retailer = ((retailer.toList.filter Char.isAlphanum).length : Int) := by
  unfold rule1Points regexp.FindAllString
  rw [List.length_map]
  congr 2
  apply List.filter_congr
  intro c _
  exact matchesAlnum_eq c

/-- C1. Round trip of the registry: when `processReceipt` gets a decoded
receipt `r` and the fresh identifier `id`, it answers with `id`, and
`getPoints` on the resulting stores answers `id` with exactly
`calculatePoints r`, whatever the stores held before. -/
theorem processReceipt_then_getPoints (st : Stores) (r : Receipt) (id : String) :
    (processReceipt st (some r) id).2 = Response.jsonID ⟨id⟩ ∧
    (getPoints (processReceipt st (some r) id).1 id).2
      = Response.jsonPoints ⟨calculatePoints r⟩ := by
  simp [processReceipt, getPoints, mapSet]

/-- C2. When `strconv.ParseFloat` returns an error for the total,
`calculatePoints` returns the number of ASCII letters and digits of the
retailer name (`Char.isAlphanum` holds of exactly those), whatever the items,
the date and the time are. The retailer name is a Go string, so its length is
below `2^63`. -/
theorem calculatePoints_unparsable_total (r : Receipt)
    (hlen : r.Retailer.length < 2 ^ 63)
    (herr : (strconv.ParseFloat r.Total).2 ≠ none) :
    calculatePoints r = ((r.Retailer.toList.filter Char.isAlphanum).length : Int) := by
  rw [calculatePoints_of_error r herr, rule1Points_eq]
  apply wrapInt_of_inRange
  · unfold minInt; omega
  · have h1 : (r.Retailer.toList.filter Char.isAlphanum).length ≤ r.Retailer.toList.length :=
      List.length_filter_le _ _
    have h2 : r.Retailer.toList.length = r.Retailer.length := rfl
    unfold maxInt
    omega

theorem calculatePoints_unparsable_total_witness :
    calculatePoints
      ⟨"M&M Corner Market é 7", "2022-01-01", "14:33", "abc", [⟨"Gatorade", "2.25"⟩]⟩ = 15 :=
  calculatePoints_unparsable_total _ (by decide) (by decide)

/-- C3. Scenario A: retailer `Target`, total `35.35`, date `2022-01-01`, time
`13:01` and two items whose trimmed descriptions have lengths (Go `len`) that
are not multiples of 3 score 17 points, whatever the two prices are. -/
theorem calculatePoints_scenarioA (d1 p1 d2 p2 : String)
    (h1 : (strings.TrimSpace d1).utf8ByteSize % 3 ≠ 0)
    (h2 : (strings.TrimSpace d2).utf8ByteSize % 3 ≠ 0) :
    calculatePoints ⟨"Target", "2022-01-01", "13:01", "35.35", [⟨d1, p1⟩, ⟨d2, p2⟩]⟩ = 17 := by
  have hp : strconv.ParseFloat "35.35" = (Float64.finite false 4975070213360845 (-47), none) := by
    decide
  rw [calculatePoints_eq_sum _ _ hp]
  have e1 : rule1Points "Target" = 6 := by decide
  have e2 : rule2Points (Float64.finite false 4975070213360845 (-47)) = 0 := by decide!
  have e3 : rule3Points (Float64.finite false 4975070213360845 (-47)) = 0 := by decide!
  have e5 : rule5Points [⟨d1, p1⟩, ⟨d2, p2⟩] = 0 := by
    simp [rule5Points, itemQualifies, h1, h2]
  have e4 : rule4Points [⟨d1, p1⟩, ⟨d2, p2⟩] = 5 := by simp [rule4Points]
  have e6 : rule6Points "2022-01-01" = 6 := by decide
  have e7 : rule7Points "13:01" = 0 := by decide
  simp only [e1, e2, e3, e4, e5, e6, e7]
  decide

theorem calculatePoints_scenarioA_witness :
    calculatePoints ⟨"Target", "2022-01-01", "13:01", "35.35",
      [⟨"Mountain Dew 12PK", "6.49"⟩, ⟨"Doritos Nacho Cheese", "3.35"⟩]⟩ = 17 :=
  calculatePoints_scenarioA _ _ _ _ (by decide) (by decide)

/-! ## Rounding to binary64 -/

namespace Float64

theorem bitLenAux_zero (fuel : Nat) : bitLenAux fuel 0 = 0 := by
  cases fuel <;> simp [bitLenAux]

theorem bitLenAux_bounds (fuel : Nat) : ∀ n : Nat, n ≤ fuel →
    n < 2 ^ bitLenAux fuel n ∧ (n ≠ 0 → 2 ^ bitLenAux fuel n ≤ 2 * n) := by
  induction fuel with
  | zero =>
    intro n hn
    have : n = 0 := by omega
    subst this
    simp [bitLenAux]
  | succ fuel ih =>
    intro n hn
    by_cases h0 : n = 0
    · subst h0
      simp [bitLenAux]
    · have hhalf : n / 2 ≤ fuel := by omega
      obtain ⟨hlt, hge⟩ := ih (n / 2) hhalf
      have hstep : bitLenAux (fuel + 1) n = 1 + bitLenAux fuel (n / 2) := by
        simp [bitLenAux, h0]
      rw [hstep, pow_add, pow_one]
      refine ⟨by omega, fun _ => ?_⟩
      by_cases h1 : n / 2 = 0
      · rw [h1, bitLenAux_zero]
        omega
      · have := hge h1
        omega

theorem lt_two_pow_bitLen (n : Nat) : n < 2 ^ bitLen n :=
  (bitLenAux_bounds n n (Nat.le_refl n)).1

theorem two_pow_bitLen_le (n : Nat) (h : n ≠ 0) : 2 ^ bitLen n ≤ 2 * n :=
  (bitLenAux_bounds n n (Nat.le_refl n)).2 h

theorem roundHalfEven_bounds (N D : Nat) (hD : 0 < D) :
    2 * (roundHalfEven N D * D) ≤ 2 * N + D ∧ 2 * N ≤ 2 * (roundHalfEven N D * D) + D := by
  have hdm : D * (N / D) + N % D = N := Nat.div_add_mod N D
  have hr : N % D < D := Nat.mod_lt N hD
  have hq : (N / D) * D = D * (N / D) := Nat.mul_comm _ _
  unfold roundHalfEven
  simp only
  split
  · omega
  · split
    · rw [Nat.add_mul]; omega
    · split
      · omega
      · rw [Nat.add_mul]; omega

theorem roundHalfEven_of_dvd (N D : Nat) (hD : 0 < D) (h : D ∣ N) : roundHalfEven N D = N / D := by
  unfold roundHalfEven
  have : N % D = 0 := Nat.mod_eq_zero_of_dvd h
  simp [this, hD]

end Float64

namespace Float64

theorem scale_of_neg (num den : Nat) (e : Int) (h : e < 0) :
    scaleNum num e = num * 2 ^ (-e).toNat ∧ scaleDen den e = den := by
  simp [scaleNum, scaleDen, h]

theorem scale_of_nonneg (num den : Nat) (e : Int) (h : 0 ≤ e) :
    scaleNum num e = num ∧ scaleDen den e = den * 2 ^ e.toNat := by
  have : ¬ e < 0 := by omega
  simp [scaleNum, scaleDen, this]

theorem scale_succ_of_neg (num den : Nat) (e : Int) (h : e < 0) :
    scaleNum num e = 2 * scaleNum num (e + 1) ∧ scaleDen den (e + 1) = scaleDen den e := by
  by_cases h1 : e + 1 < 0
  · obtain ⟨a1, a2⟩ := scale_of_neg num den e h
    obtain ⟨b1, b2⟩ := scale_of_neg num den (e + 1) h1
    have hk : (-e).toNat = (-(e + 1)).toNat + 1 := by omega
    rw [a1, a2, b1, b2, hk, pow_succ]
    exact ⟨by ring, rfl⟩
  · have he : e = -1 := by omega
    subst he
    simp [scaleNum, scaleDen]
    ring

theorem scale_succ_of_nonneg (num den : Nat) (e : Int) (h : 0 ≤ e) :
    scaleNum num (e + 1) = scaleNum num e ∧ scaleDen den (e + 1) = 2 * scaleDen den e := by
  obtain ⟨a1, a2⟩ := scale_of_nonneg num den e h
  obtain ⟨b1, b2⟩ := scale_of_nonneg num den (e + 1) (by omega)
  have hk : (e + 1).toNat = e.toNat + 1 := by omega
  rw [a1, a2, b1, b2, hk, pow_succ]
  exact ⟨rfl, by ring⟩

theorem scaleDen_pos (den : Nat) (e : Int) (hd : 0 < den) : 0 < scaleDen den e := by
  unfold scaleDen
  split
  · exact hd
  · exact Nat.mul_pos hd (Nat.two_pow_pos _)

/-- At the exponent `bitLen num - bitLen den - 53` the quotient lies in `[2^52, 2^54)`. -/
theorem scale_at_bitLen (num den : Nat) (hn : 0 < num) (hd : 0 < den) (e0 : Int)
    (he0 : e0 = (bitLen num : Int) - (bitLen den : Int) - 53) :
    2 ^ 52 * scaleDen den e0 ≤ scaleNum num e0 ∧ scaleNum num e0 < 2 ^ 54 * scaleDen den e0 := by
  have ha1 := lt_two_pow_bitLen num
  have ha2 := two_pow_bitLen_le num (by omega)
  have hb1 := lt_two_pow_bitLen den
  have hb2 := two_pow_bitLen_le den (by omega)
  by_cases hneg : e0 < 0
  · obtain ⟨s1, s2⟩ := scale_of_neg num den e0 hneg
    rw [s1, s2]
    generalize hk : (-e0).toNat = k
    have hak : bitLen num + k = bitLen den + 53 := by omega
    have hpow : 2 ^ bitLen num * 2 ^ k = 2 ^ bitLen den * 2 ^ 53 := by
      rw [← pow_add, ← pow_add, hak]
    have h1 : 2 ^ bitLen num * 2 ^ k ≤ 2 * num * 2 ^ k := Nat.mul_le_mul_right _ ha2
    have h2 : num * 2 ^ k < 2 ^ bitLen num * 2 ^ k :=
      Nat.mul_lt_mul_of_pos_right ha1 (Nat.two_pow_pos _)
    have h3 : 2 * num * 2 ^ k = 2 * (num * 2 ^ k) := by ring
    generalize num * 2 ^ k = P at *
    generalize 2 ^ bitLen den = X at *
    generalize 2 ^ bitLen num * 2 ^ k = Z at *
    omega
  · obtain ⟨s1, s2⟩ := scale_of_nonneg num den e0 (by omega)
    rw [s1, s2]
    generalize hj : e0.toNat = j
    have haj : bitLen num = bitLen den + 53 + j := by omega
    have hpow : 2 ^ bitLen num = 2 ^ bitLen den * 2 ^ j * 2 ^ 53 := by
      rw [haj, pow_add, pow_add]; ring
    have h1 : den * 2 ^ j < 2 ^ bitLen den * 2 ^ j :=
      Nat.mul_lt_mul_of_pos_right hb1 (Nat.two_pow_pos _)
    have h2 : 2 ^ bitLen den * 2 ^ j ≤ 2 * den * 2 ^ j := Nat.mul_le_mul_right _ hb2
    have h3 : 2 * den * 2 ^ j = 2 * (den * 2 ^ j) := by ring
    generalize den * 2 ^ j = Q at *
    generalize 2 ^ bitLen den * 2 ^ j = Y at *
    generalize 2 ^ bitLen num = Z at *
    omega

/-- Below the subnormal exponent the quotient at `-1074` is under `2^53`. -/
theorem scale_at_subnormal (num den : Nat) (hd : 0 < den)
    (h : (bitLen num : Int) - (bitLen den : Int) - 53 < -1074) :
    scaleNum num (-1074) < 2 ^ 53 * scaleDen den (-1074) := by
  have ha1 := lt_two_pow_bitLen num
  have hb2 := two_pow_bitLen_le den (by omega)
  obtain ⟨s1, s2⟩ := scale_of_neg num den (-1074) (by decide)
  rw [s1, s2]
  have hk : (-(-1074 : Int)).toNat = 1074 := by decide
  rw [hk]
  have hle : bitLen num + 1074 ≤ bitLen den + 52 := by omega
  have h1 : num * 2 ^ 1074 < 2 ^ bitLen num * 2 ^ 1074 :=
    Nat.mul_lt_mul_of_pos_right ha1 (Nat.two_pow_pos _)
  have h2 : 2 ^ bitLen num * 2 ^ 1074 ≤ 2 ^ bitLen den * 2 ^ 52 := by
    rw [← pow_add, ← pow_add]
    exact Nat.pow_le_pow_right (by decide) hle
  have h3 : 2 ^ bitLen den * 2 ^ 52 ≤ 2 * den * 2 ^ 52 := Nat.mul_le_mul_right _ hb2
  have h4 : 2 * den * 2 ^ 52 = 2 ^ 53 * den := by ring
  omega

/-- The exponent chosen by `chooseExp` puts the quotient below `2^53`, and at
or above `2^52` unless it is the subnormal exponent. -/
theorem chooseExp_spec (num den : Nat) (hn : 0 < num) (hd : 0 < den) :
    scaleNum num (chooseExp num den) < 2 ^ 53 * scaleDen den (chooseExp num den) ∧
    (2 ^ 52 * scaleDen den (chooseExp num den) ≤ scaleNum num (chooseExp num den) ∨
      chooseExp num den = -1074) ∧
    -1074 ≤ chooseExp num den := by
  have hpos : ∀ e, 0 < scaleDen den e := fun e => scaleDen_pos den e hd
  unfold chooseExp
  simp only
  by_cases hbig : (-1074 : Int) ≤ (bitLen num : Int) - (bitLen den : Int) - 53
  · rw [max_eq_left hbig]
    generalize he0 : (bitLen num : Int) - (bitLen den : Int) - 53 = e0 at *
    obtain ⟨hlo, hhi⟩ := scale_at_bitLen num den hn hd e0 he0.symm
    split
    · rename_i hge
      have hge1 : 2 ^ 53 * scaleDen den e0 ≤ scaleNum num e0 := by
        have := (Nat.le_div_iff_mul_le (hpos e0)).1 hge
        omega
      by_cases hneg : e0 < 0
      · obtain ⟨t1, t2⟩ := scale_succ_of_neg num den e0 hneg
        rw [t2]
        refine ⟨by omega, Or.inl (by omega), by omega⟩
      · obtain ⟨t1, t2⟩ := scale_succ_of_nonneg num den e0 (by omega)
        rw [t1, t2]
        refine ⟨by omega, Or.inl (by omega), by omega⟩
    · rename_i hlt
      have hlt1 : scaleNum num e0 < 2 ^ 53 * scaleDen den e0 := by
        have := (Nat.div_lt_iff_lt_mul (hpos e0)).1 (Nat.lt_of_not_le hlt)
        omega
      exact ⟨hlt1, Or.inl hlo, hbig⟩
  · have hsmall : (bitLen num : Int) - (bitLen den : Int) - 53 < -1074 := by omega
    rw [max_eq_right (by omega)]
    have hlt := scale_at_subnormal num den hd hsmall
    have hnot : ¬ 2 ^ 53 ≤ scaleNum num (-1074) / scaleDen den (-1074) := by
      intro hge
      have := (Nat.le_div_iff_mul_le (hpos (-1074))).1 hge
      omega
    rw [if_neg hnot]
    exact ⟨hlt, Or.inr rfl, by decide⟩

end Float64

namespace Float64

/-- How `ofFrac` rounds a positive fraction: the exponent `e` and the
mantissa `m` it works with, and the value it returns. -/
theorem ofFrac_spec (neg : Bool) (num den : Nat) (hn : 0 < num) (hd : 0 < den) :
    ∃ (e : Int) (m : Nat),
      -1074 ≤ e ∧
      scaleNum num e < 2 ^ 53 * scaleDen den e ∧
      (2 ^ 52 * scaleDen den e ≤ scaleNum num e ∨ e = -1074) ∧
      2 * (m * scaleDen den e) ≤ 2 * scaleNum num e + scaleDen den e ∧
      2 * scaleNum num e ≤ 2 * (m * scaleDen den e) + scaleDen den e ∧
      (scaleDen den e ∣ scaleNum num e → m = scaleNum num e / scaleDen den e) ∧
      m ≤ 2 ^ 53 ∧
      ofFrac neg num den =
        (if m = 2 ^ 53 then (if 971 < e + 1 then inf neg else finite neg (2 ^ 52) (e + 1))
         else (if 971 < e then inf neg else finite neg m e)) := by
  obtain ⟨h1, h2, h3⟩ := chooseExp_spec num den hn hd
  have hD := scaleDen_pos den (chooseExp num den) hd
  obtain ⟨r1, r2⟩ := roundHalfEven_bounds (scaleNum num (chooseExp num den))
    (scaleDen den (chooseExp num den)) hD
  refine ⟨chooseExp num den, roundHalfEven (scaleNum num (chooseExp num den))
    (scaleDen den (chooseExp num den)), h3, h1, h2, r1, r2,
    roundHalfEven_of_dvd _ _ hD, ?_, ?_⟩
  · generalize roundHalfEven (scaleNum num (chooseExp num den))
      (scaleDen den (chooseExp num den)) = m at *
    generalize scaleNum num (chooseExp num den) = N at *
    generalize scaleDen den (chooseExp num den) = D at *
    by_contra hgt
    have hm : 2 ^ 53 + 1 ≤ m := by omega
    have : (2 ^ 53 + 1) * D ≤ m * D := Nat.mul_le_mul_right D hm
    omega
  · unfold ofFrac
    have hne : num ≠ 0 := by omega
    simp only [hne, if_false]
    split <;> rfl

/-- The case of `ofFrac` for a positive fraction below `2^47`: the rounding
happens at an exponent `-k` with `k ≥ 6`, and the result is finite. -/
theorem ofFrac_small (neg : Bool) (num den : Nat) (hn : 0 < num) (hd : 0 < den)
    (hsmall : num < 2 ^ 47 * den) :
    ∃ (k m : Nat),
      6 ≤ k ∧
      num * 2 ^ k < 2 ^ 53 * den ∧
      2 * (m * den) ≤ 2 * (num * 2 ^ k) + den ∧
      2 * (num * 2 ^ k) ≤ 2 * (m * den) + den ∧
      (den ∣ num * 2 ^ k → m = num * 2 ^ k / den) ∧
      m ≤ 2 ^ 53 ∧
      ofFrac neg num den =
        (if m = 2 ^ 53 then finite neg (2 ^ 52) (-((k - 1 : Nat) : Int))
         else finite neg m (-(k : Int))) := by
  obtain ⟨e, m, h1, h2, h3, h4, h5, h6, h7, h8⟩ := ofFrac_spec neg num den hn hd
  have heneg : e < 0 := by
    by_contra hge
    obtain ⟨s1, s2⟩ := scale_of_nonneg num den e (by omega)
    rw [s1, s2] at h3
    rcases h3 with h3 | h3
    · have : den * 1 ≤ den * 2 ^ e.toNat := Nat.mul_le_mul_left den (Nat.two_pow_pos _)
      omega
    · omega
  obtain ⟨s1, s2⟩ := scale_of_neg num den e heneg
  rw [s1, s2] at h2 h3 h4 h5 h6
  generalize hk : (-e).toNat = k at *
  have hek : e = -(k : Int) := by omega
  have hk6 : 6 ≤ k := by
    rcases h3 with h3 | h3
    · by_contra hlt
      have hk5 : k ≤ 5 := by omega
      have : (2 : Nat) ^ k ≤ 2 ^ 5 := Nat.pow_le_pow_right (by decide) hk5
      have h9 : num * 2 ^ k ≤ num * 2 ^ 5 := Nat.mul_le_mul_left num this
      omega
    · omega
  refine ⟨k, m, hk6, h2, h4, h5, h6, h7, ?_⟩
  rw [h8]
  have e1 : ¬ (971 < e + 1) := by omega
  have e2 : ¬ (971 < e) := by omega
  have e3 : e + 1 = -((k - 1 : Nat) : Int) := by omega
  rw [if_neg e1, if_neg e2, e3]
  split
  · rfl
  · rw [hek]

end Float64

namespace Float64

theorem align_of_le (m1 m2 k1 k2 : Nat) (h : k1 ≤ k2) :
    align m1 (-(k1 : Int)) m2 (-(k2 : Int)) = (m1 * 2 ^ (k2 - k1), m2) := by
  unfold align
  have hmin : min (-(k1 : Int)) (-(k2 : Int)) = -(k2 : Int) := by omega
  have h1 : (-(k1 : Int) - -(k2 : Int)).toNat = k2 - k1 := by omega
  have h2 : (-(k2 : Int) - -(k2 : Int)).toNat = 0 := by omega
  simp only [hmin, h1, h2, pow_zero, Nat.mul_one]

theorem align_of_ge (m1 m2 k1 k2 : Nat) (h : k2 ≤ k1) :
    align m1 (-(k1 : Int)) m2 (-(k2 : Int)) = (m1, m2 * 2 ^ (k1 - k2)) := by
  unfold align
  have hmin : min (-(k1 : Int)) (-(k2 : Int)) = -(k1 : Int) := by omega
  have h1 : (-(k2 : Int) - -(k1 : Int)).toNat = k1 - k2 := by omega
  have h2 : (-(k1 : Int) - -(k1 : Int)).toNat = 0 := by omega
  simp only [hmin, h1, h2, pow_zero, Nat.mul_one]

/-- Aligned mantissas are equal exactly when the two values are. -/
theorem align_eq_iff (m1 m2 k1 k2 : Nat) :
    (align m1 (-(k1 : Int)) m2 (-(k2 : Int))).1 = (align m1 (-(k1 : Int)) m2 (-(k2 : Int))).2 ↔
      m1 * 2 ^ k2 = m2 * 2 ^ k1 := by
  rcases Nat.le_total k1 k2 with h | h
  · rw [align_of_le m1 m2 k1 k2 h]
    have hk : k2 = (k2 - k1) + k1 := by omega
    rw [show m1 * 2 ^ k2 = m1 * 2 ^ (k2 - k1) * 2 ^ k1 by
      conv_lhs => rw [hk, pow_add]
      ring]
    exact (Nat.mul_left_inj (Nat.two_pow_pos k1).ne').symm
  · rw [align_of_ge m1 m2 k1 k2 h]
    have hk : k1 = (k1 - k2) + k2 := by omega
    rw [show m2 * 2 ^ k1 = m2 * 2 ^ (k1 - k2) * 2 ^ k2 by
      conv_lhs => rw [hk, pow_add]
      ring]
    exact (Nat.mul_left_inj (Nat.two_pow_pos k2).ne').symm

/-- The remainder of aligned mantissas is zero exactly when one value divides the other. -/
theorem align_mod_eq_zero_iff (m1 m2 k1 k2 : Nat) :
    (align m1 (-(k1 : Int)) m2 (-(k2 : Int))).1 % (align m1 (-(k1 : Int)) m2 (-(k2 : Int))).2 = 0 ↔
      m2 * 2 ^ k1 ∣ m1 * 2 ^ k2 := by
  rw [← Nat.dvd_iff_mod_eq_zero]
  rcases Nat.le_total k1 k2 with h | h
  · rw [align_of_le m1 m2 k1 k2 h]
    have hk : k2 = (k2 - k1) + k1 := by omega
    rw [show m1 * 2 ^ k2 = m1 * 2 ^ (k2 - k1) * 2 ^ k1 by
      conv_lhs => rw [hk, pow_add]
      ring]
    exact (Nat.mul_dvd_mul_iff_right (Nat.two_pow_pos k1)).symm
  · rw [align_of_ge m1 m2 k1 k2 h]
    have hk : k1 = (k1 - k2) + k2 := by omega
    rw [show m2 * 2 ^ k1 = m2 * 2 ^ (k1 - k2) * 2 ^ k2 by
      conv_lhs => rw [hk, pow_add]
      ring]
    exact (Nat.mul_dvd_mul_iff_right (Nat.two_pow_pos k2)).symm

theorem eq_zero_iff (n : Bool) (m : Nat) (e : Int) : eq (finite n m e) zero = decide (m = 0) := by
  unfold eq zero
  by_cases hm : m = 0
  · simp [hm]
  · have hpos : ∀ a : Nat, m * 2 ^ a ≠ 0 := fun a =>
      Nat.mul_ne_zero hm (Nat.two_pow_pos a).ne'
    simp [hm, align, hpos]

theorem quarter_eq : quarter = finite false (2 ^ 52) (-((54 : Nat) : Int)) := by decide

end Float64

open Float64 in
/-- Rule 3 on a finite value `m * 2^(-k)`: 25 points exactly when the value
is a multiple of one quarter. -/
theorem rule3Points_finite (n : Bool) (m k : Nat) (hk : 2 ≤ k) :
    rule3Points (finite n m (-(k : Int))) = if 2 ^ (k - 2) ∣ m then 25 else 0 := by
  unfold rule3Points
  rw [quarter_eq]
  have hne : (2 : Nat) ^ 52 ≠ 0 := by decide
  simp only [math.Mod, hne, if_false, eq_zero_iff, decide_eq_true_eq]
  have hiff : 2 ^ 52 * 2 ^ k ∣ m * 2 ^ 54 ↔ 2 ^ (k - 2) ∣ m := by
    have h1 : 2 ^ 52 * 2 ^ k = 2 ^ (k - 2) * 2 ^ 54 := by
      rw [← pow_add, ← pow_add]
      congr 1
      omega
    rw [h1]
    exact Nat.mul_dvd_mul_iff_right (Nat.two_pow_pos 54)
  simp only [align_mod_eq_zero_iff, hiff]

namespace Float64

/-- Converting a natural number below `2^53` is exact. -/
theorem ofFrac_nat_exact (neg : Bool) (t : Nat) (ht : t < 2 ^ 53) :
    ∃ j : Nat, ofFrac neg t 1 = finite neg (t * 2 ^ j) (-(j : Int)) := by
  by_cases h0 : t = 0
  · subst h0
    exact ⟨1074, by simp [ofFrac]⟩
  · obtain ⟨e, m, h1, h2, h3, h4, h5, h6, h7, h8⟩ := ofFrac_spec neg t 1 (by omega) (by decide)
    have hle : e ≤ 0 := by
      by_contra hgt
      obtain ⟨s1, s2⟩ := scale_of_nonneg t 1 e (by omega)
      rw [s1, s2] at h3
      rcases h3 with h3 | h3
      · have hp : (2 : Nat) ^ 1 ≤ 2 ^ e.toNat := Nat.pow_le_pow_right (by decide) (by omega)
        omega
      · omega
    have hD : scaleDen 1 e = 1 := by
      by_cases hneg : e < 0
      · exact (scale_of_neg t 1 e hneg).2
      · have : e = 0 := by omega
        subst this
        simp [scaleDen]
    have hN : scaleNum t e = t * 2 ^ (-e).toNat := by
      by_cases hneg : e < 0
      · exact (scale_of_neg t 1 e hneg).1
      · have : e = 0 := by omega
        subst this
        simp [scaleNum]
    rw [hD] at h2 h6
    have hm : m = scaleNum t e := by
      have := h6 (one_dvd _)
      rwa [Nat.div_one] at this
    refine ⟨(-e).toNat, ?_⟩
    rw [h8, ← hN, ← hm]
    have e1 : m ≠ 2 ^ 53 := by omega
    have e2 : ¬ (971 < e) := by omega
    have e3 : -(((-e).toNat : Nat) : Int) = e := by omega
    rw [if_neg e1, if_neg e2, e3]

end Float64

open Float64 in
theorem toInt_finite_neg (m k t : Nat) (hk : 1 ≤ k) (ht : m / 2 ^ k = t) (hlt : t < 2 ^ 63) :
    toInt (finite false m (-(k : Int))) = (t : Int) := by
  have hkneg : -(k : Int) < 0 := by omega
  have hkk : (-(-(k : Int))).toNat = k := by omega
  unfold toInt
  simp only [hkneg, if_true, hkk, Bool.false_eq_true, if_false, ht]
  have h1 : minInt ≤ (t : Int) := by unfold minInt; omega
  have h2 : (t : Int) ≤ maxInt := by unfold maxInt; omega
  rw [if_pos ⟨h1, h2⟩]

open Float64 in
theorem ofInt_natCast (t : Nat) : ofInt (t : Int) = ofFrac false t 1 := by
  unfold ofInt
  have h1 : decide ((t : Int) < 0) = false := by
    rw [decide_eq_false_iff_not]
    omega
  rw [h1, Int.natAbs_ofNat]

open Float64 in
/-- Rule 2 on a finite value `m * 2^(-k)` below `2^53`: 50 points exactly
when the value is an integer. -/
theorem rule2Points_finite (m k : Nat) (hk : 1 ≤ k) (hm : m ≤ 2 ^ 53) :
    rule2Points (finite false m (-(k : Int))) = if 2 ^ k ∣ m then 50 else 0 := by
  have hhalf : m / 2 ^ k < 2 ^ 53 := by
    have h2 : (2 : Nat) ^ 1 ≤ 2 ^ k := Nat.pow_le_pow_right (by decide) hk
    have : m / 2 ^ k ≤ m / 2 ^ 1 := Nat.div_le_div_left h2 (by decide)
    omega
  obtain ⟨j, hj⟩ := ofFrac_nat_exact false (m / 2 ^ k) hhalf
  unfold rule2Points
  rw [toInt_finite_neg m k (m / 2 ^ k) hk rfl (Nat.lt_of_lt_of_le hhalf (by decide)),
    ofInt_natCast, hj]
  have hiff : m * 2 ^ j = m / 2 ^ k * 2 ^ j * 2 ^ k ↔ 2 ^ k ∣ m := by
    rw [show m / 2 ^ k * 2 ^ j * 2 ^ k = (m / 2 ^ k * 2 ^ k) * 2 ^ j by ring]
    rw [Nat.mul_left_inj (Nat.two_pow_pos j).ne']
    constructor
    · intro h
      exact ⟨m / 2 ^ k, by rw [Nat.mul_comm]; exact h⟩
    · intro h
      exact (Nat.div_mul_cancel h).symm
  by_cases hm0 : m = 0
  · subst hm0
    simp [eq]
  · have hne : ¬ (m = 0 ∧ m / 2 ^ k * 2 ^ j = 0) := fun h => hm0 h.1
    simp only [eq, hne, if_false, if_true, align_eq_iff, hiff, decide_eq_true_eq]

open Float64 in
/-- Rule 2 on the binary64 value nearest to `num/den`, for a denominator 1,
10 or 100 and a fraction below `2^47`: 50 points exactly when `num/den` is an
integer. -/
theorem rule2Points_ofFrac (num den : Nat) (hden : den = 1 ∨ den = 10 ∨ den = 100)
    (hsmall : num < 2 ^ 47 * den) :
    rule2Points (ofFrac false num den) = if den ∣ num then 50 else 0 := by
  have hd : 0 < den := by omega
  by_cases hn : num = 0
  · subst hn
    have h0 : ofFrac false 0 den = finite false 0 (-((1074 : Nat) : Int)) := by simp [ofFrac]
    rw [h0, rule2Points_finite 0 1074 (by decide) (by decide)]
    simp
  · obtain ⟨k, m, hk, h2, h4, h5, h6, h7, h8⟩ :=
      ofFrac_small false num den (by omega) hd hsmall
    have hP : 2 ^ 6 ≤ 2 ^ k := Nat.pow_le_pow_right (by decide) hk
    -- the rule's condition, on the mantissa before renormalisation
    have hcond : rule2Points (ofFrac false num den) = if 2 ^ k ∣ m then 50 else 0 := by
      rw [h8]
      by_cases hm : m = 2 ^ 53
      · rw [if_pos hm, rule2Points_finite (2 ^ 52) (k - 1) (by omega) (by decide), hm]
        have : (2 : Nat) ^ (k - 1) ∣ 2 ^ 52 ↔ 2 ^ k ∣ 2 ^ 53 := by
          rw [Nat.pow_dvd_pow_iff_le_right (by decide), Nat.pow_dvd_pow_iff_le_right (by decide)]
          omega
        simp only [this]
      · rw [if_neg hm, rule2Points_finite m k (by omega) h7]
    rw [hcond]
    have hiff : 2 ^ k ∣ m ↔ den ∣ num := by
      constructor
      · rintro ⟨j, hj⟩
        have hA : m * den = 2 ^ k * (j * den) := by rw [hj]; ring
        have hB : num * 2 ^ k = 2 ^ k * num := by ring
        rw [hA, hB] at h4 h5
        have heq : j * den = num := by
          rcases Nat.lt_trichotomy (j * den) num with hlt | heq | hgt
          · have := Nat.mul_le_mul_left (2 ^ k) (Nat.succ_le_of_lt hlt)
            rw [Nat.succ_eq_add_one, Nat.mul_add, Nat.mul_one] at this
            omega
          · exact heq
          · have := Nat.mul_le_mul_left (2 ^ k) (Nat.succ_le_of_lt hgt)
            rw [Nat.succ_eq_add_one, Nat.mul_add, Nat.mul_one] at this
            omega
        exact ⟨j, by rw [← heq]; ring⟩
      · rintro ⟨c, hc⟩
        have hdvd : den ∣ num * 2 ^ k := ⟨c * 2 ^ k, by rw [hc]; ring⟩
        rw [h6 hdvd, hc, show den * c * 2 ^ k = den * (c * 2 ^ k) by ring,
          Nat.mul_div_cancel_left _ hd]
        exact ⟨c, by ring⟩
    simp only [hiff]

open Float64 in
/-- Rule 3 on the binary64 value nearest to `num/den`, for a denominator 1,
10 or 100 and a fraction below `2^47`: 25 points exactly when `num/den` is a
multiple of one quarter. -/
theorem rule3Points_ofFrac (num den : Nat) (hden : den = 1 ∨ den = 10 ∨ den = 100)
    (hsmall : num < 2 ^ 47 * den) :
    rule3Points (ofFrac false num den) = if den ∣ 4 * num then 25 else 0 := by
  have hd : 0 < den := by omega
  by_cases hn : num = 0
  · subst hn
    have h0 : ofFrac false 0 den = finite false 0 (-((1074 : Nat) : Int)) := by simp [ofFrac]
    rw [h0, rule3Points_finite false 0 1074 (by decide), if_pos (dvd_zero _),
      if_pos (by simp)]
  · obtain ⟨k, m, hk, h2, h4, h5, h6, h7, h8⟩ :=
      ofFrac_small false num den (by omega) hd hsmall
    have hP : 2 ^ 4 ≤ 2 ^ (k - 2) := Nat.pow_le_pow_right (by decide) (by omega)
    have hk4 : 2 ^ k = 4 * 2 ^ (k - 2) := by
      have : k = 2 + (k - 2) := by omega
      conv_lhs => rw [this, pow_add]
      norm_num
    have hcond : rule3Points (ofFrac false num den) = if 2 ^ (k - 2) ∣ m then 25 else 0 := by
      rw [h8]
      by_cases hm : m = 2 ^ 53
      · rw [if_pos hm, rule3Points_finite false (2 ^ 52) (k - 1) (by omega), hm]
        have : (2 : Nat) ^ (k - 1 - 2) ∣ 2 ^ 52 ↔ 2 ^ (k - 2) ∣ 2 ^ 53 := by
          rw [Nat.pow_dvd_pow_iff_le_right (by decide), Nat.pow_dvd_pow_iff_le_right (by decide)]
          omega
        simp only [this]
      · rw [if_neg hm, rule3Points_finite false m k (by omega)]
    rw [hcond]
    have hiff : 2 ^ (k - 2) ∣ m ↔ den ∣ 4 * num := by
      constructor
      · rintro ⟨j, hj⟩
        have hA : m * den = 2 ^ (k - 2) * (j * den) := by rw [hj]; ring
        have hB : num * 2 ^ k = 2 ^ (k - 2) * (4 * num) := by rw [hk4]; ring
        rw [hA, hB] at h4 h5
        have heq : j * den = 4 * num := by
          rcases Nat.lt_trichotomy (j * den) (4 * num) with hlt | heq | hgt
          · have hgap : j * den + (if den = 100 then 4 else 1) ≤ 4 * num := by
              rcases hden with h | h | h <;> subst h <;> simp <;> omega
            have := Nat.mul_le_mul_left (2 ^ (k - 2)) hgap
            rw [Nat.mul_add] at this
            rcases hden with h | h | h <;> subst h <;> simp at this <;> omega
          · exact heq
          · have hgap : 4 * num + (if den = 100 then 4 else 1) ≤ j * den := by
              rcases hden with h | h | h <;> subst h <;> simp <;> omega
            have := Nat.mul_le_mul_left (2 ^ (k - 2)) hgap
            rw [Nat.mul_add] at this
            rcases hden with h | h | h <;> subst h <;> simp at this <;> omega
        exact ⟨j, by rw [← heq]; ring⟩
      · rintro ⟨c, hc⟩
        have hN : num * 2 ^ k = den * (c * 2 ^ (k - 2)) := by
          rw [hk4, show num * (4 * 2 ^ (k - 2)) = (4 * num) * 2 ^ (k - 2) by ring, hc]
          ring
        have hdvd : den ∣ num * 2 ^ k := ⟨c * 2 ^ (k - 2), hN⟩
        rw [h6 hdvd, hN, Nat.mul_div_cancel_left _ hd]
        exact ⟨c, by ring⟩
    simp only [hiff]

/-! ## Parsing decimal text -/

namespace strconv

theorem isDigit_iff (c : Char) : time.isDigit c = true ↔ ('0' ≤ c ∧ c ≤ '9') := by
  simp [time.isDigit]

theorem digit_ne (c : Char) (h : '0' ≤ c ∧ c ≤ '9') :
    c ≠ '_' ∧ c ≠ '.' ∧ c ≠ '+' ∧ c ≠ '-' ∧ c ≠ 'i' ∧ c ≠ 'I' ∧ c ≠ 'n' ∧ c ≠ 'N' ∧
      c ≠ 'x' ∧ c ≠ 'X' := by
  refine ⟨?_, ?_, ?_, ?_, ?_, ?_, ?_, ?_, ?_, ?_⟩ <;>
    · rintro rfl
      revert h
      decide

/-- The digit loop of `readFloat` on a run of decimal digits. -/
theorem readDigits_digits (ds : List Char) (hds : ∀ c ∈ ds, '0' ≤ c ∧ c ≤ '9') :
    ∀ (rest : List Char) (st : Digits),
      readDigits false (ds ++ rest) st =
        readDigits false rest
          { st with
            sawdigits := st.sawdigits || !ds.isEmpty
            mant := ds.foldl (fun acc c => acc * 10 + digitVal c) st.mant
            fracDigits := if st.sawdot then st.fracDigits + ds.length else st.fracDigits } := by
  induction ds with
  | nil =>
    intro rest st
    simp
  | cons c cs ih =>
    intro rest st
    have hc := hds c (List.mem_cons_self _ _)
    obtain ⟨h1, h2, -⟩ := digit_ne c hc
    rw [List.cons_append, readDigits]
    rw [if_neg h1, if_neg h2, if_pos hc]
    rw [ih (fun d hd => hds d (List.mem_cons_of_mem _ hd))]
    congr 1
    cases hs : st.sawdot
    · simp [hs]
    · simp [hs]
      omega

/-- The digit loop of `readFloat` on the digits of a decimal number. -/
theorem readDigits_decimal (ip fp : List Char) (hip : ∀ c ∈ ip, '0' ≤ c ∧ c ≤ '9')
    (hfp : ∀ c ∈ fp, '0' ≤ c ∧ c ≤ '9') :
    readDigits false (ip ++ (if fp = [] then [] else '.' :: fp)) ⟨false, false, false, 0, 0⟩ =
      (⟨!fp.isEmpty, !ip.isEmpty || !fp.isEmpty, false, digitsValue (ip ++ fp), fp.length⟩, []) := by
  rw [readDigits_digits ip hip]
  by_cases hf : fp = []
  · subst hf
    simp [readDigits, digitsValue]
  · rw [if_neg hf, readDigits]
    have e1 : ('.' : Char) ≠ '_' := by decide
    rw [if_neg e1, if_pos rfl]
    simp only [Bool.false_eq_true, if_false]
    have := readDigits_digits fp hfp []
    rw [List.append_nil] at this
    rw [this]
    have hne : fp.isEmpty = false := by
      cases fp with
      | nil => exact absurd rfl hf
      | cons _ _ => rfl
    simp [readDigits, digitsValue, List.foldl_append, hne]

end strconv

open strconv Float64 in
/-- What `strconv.ParseFloat` returns for a well-formed non-negative decimal
number: the binary64 value nearest to it, and an error only when that is an
infinity. -/
theorem ParseFloat_decimal (ip fp : List Char) (hwf : wellFormedDecimal ip fp = true) :
    ParseFloat (decimalText ip fp) =
      (ofFrac false (digitsValue (ip ++ fp)) (10 ^ fp.length),
        if (ofFrac false (digitsValue (ip ++ fp)) (10 ^ fp.length)).isInf
          then some NumError.ErrRange else none) := by
  simp only [wellFormedDecimal, allDigits, Bool.and_eq_true, Bool.not_eq_true',
    List.all_eq_true, isDigit_iff] at hwf
  obtain ⟨⟨hne, hip⟩, hfp⟩ := hwf
  obtain ⟨c, cs, rfl⟩ : ∃ c cs, ip = c :: cs := by
    cases ip with
    | nil => simp at hne
    | cons c cs => exact ⟨c, cs, rfl⟩
  have hc := hip c (List.mem_cons_self _ _)
  have hcs : ∀ d ∈ cs, '0' ≤ d ∧ d ≤ '9' := fun d hd => hip d (List.mem_cons_of_mem _ hd)
  obtain ⟨n1, n2, n3, n4, n5, n6, n7, n8, n9, n10⟩ := digit_ne c hc
  have hlist : (decimalText (c :: cs) fp).toList
      = (c :: cs) ++ (if fp = [] then [] else '.' :: fp) := by
    unfold decimalText
    by_cases hf : fp = [] <;> simp [hf]
  generalize htail : (if fp = [] then [] else '.' :: fp) = tail at hlist
  have hspecial : special ((c :: cs) ++ tail) = none := by
    simp [special, n3, n4, n5, n6, n7, n8]
  have hsign : readSign ((c :: cs) ++ tail) = (false, (c :: cs) ++ tail) := by
    unfold readSign
    split <;> simp_all
  have hmem : ∀ x ∈ cs ++ tail, x ≠ 'x' ∧ x ≠ 'X' := by
    intro x hx
    rcases List.mem_append.1 hx with h | h
    · have := digit_ne x (hcs x h)
      exact ⟨this.2.2.2.2.2.2.2.2.1, this.2.2.2.2.2.2.2.2.2⟩
    · rw [← htail] at h
      by_cases hf : fp = []
      · simp [hf] at h
      · rw [if_neg hf] at h
        rcases List.mem_cons.1 h with h | h
        · subst h
          exact ⟨by decide, by decide⟩
        · have := digit_ne x (hfp x h)
          exact ⟨this.2.2.2.2.2.2.2.2.1, this.2.2.2.2.2.2.2.2.2⟩
  have hbase : readBase ((c :: cs) ++ tail) = (false, (c :: cs) ++ tail) := by
    unfold readBase
    split
    · rename_i x c1 cs1 heq
      have hx : x ∈ cs ++ tail := by
        rw [List.cons_append] at heq
        have h2 := (List.cons.inj heq).2
        rw [h2]
        exact List.mem_cons_self _ _
      have := hmem x hx
      simp [this.1, this.2, heq]
    · rfl
  have hdig := readDigits_decimal (c :: cs) fp hip hfp
  rw [htail] at hdig
  have hread : readFloat ((c :: cs) ++ tail)
      = some ⟨false, false, digitsValue ((c :: cs) ++ fp), -(fp.length : Int), []⟩ := by
    unfold readFloat
    simp only [hsign, hbase, hdig]
    simp [readFinish]
  unfold ParseFloat
  simp only [hlist, hspecial, hread]
  have htf : toFloat false (digitsValue ((c :: cs) ++ fp)) 10 (-(fp.length : Int))
      = ofFrac false (digitsValue ((c :: cs) ++ fp)) (10 ^ fp.length) := by
    unfold toFloat
    by_cases hl : fp.length = 0
    · simp [hl]
    · have h1 : -(fp.length : Int) < 0 := by omega
      have h2 : (-(-(fp.length : Int))).toNat = fp.length := by omega
      rw [if_pos h1, h2]
  rw [List.cons_append] at htf
  simp [htf]

theorem digitsValue_append (ip fp : List Char) :
    digitsValue (ip ++ fp) = digitsValue ip * 10 ^ fp.length + digitsValue fp := by
  unfold digitsValue
  rw [List.foldl_append]
  generalize List.foldl (fun acc c => acc * 10 + strconv.digitVal c) 0 ip = a
  induction fp generalizing a with
  | nil => simp
  | cons c cs ih =>
    simp only [List.foldl_cons, List.length_cons, Nat.zero_mul, Nat.zero_add]
    rw [ih (a * 10 + strconv.digitVal c), ih (strconv.digitVal c), pow_succ]
    ring

theorem digitVal_le (c : Char) (h : '0' ≤ c ∧ c ≤ '9') : strconv.digitVal c ≤ 9 := by
  unfold strconv.digitVal
  have h2 : c.toNat ≤ '9'.toNat := h.2
  have : '9'.toNat = 57 := rfl
  have : '0'.toNat = 48 := rfl
  omega

theorem digitsValue_lt (fp : List Char) (h : allDigits fp = true) :
    digitsValue fp < 10 ^ fp.length := by
  simp only [allDigits, List.all_eq_true, strconv.isDigit_iff] at h
  induction fp using List.reverseRecOn with
  | nil => simp [digitsValue]
  | append_singleton cs c ih =>
    have hc := digitVal_le c (h c (by simp))
    have hcs := ih (fun d hd => h d (by simp [hd]))
    rw [digitsValue_append, List.length_append, pow_add]
    simp only [List.length_singleton, pow_one]
    have : digitsValue [c] = strconv.digitVal c := by simp [digitsValue]
    omega

/-- For a decimal with at most two fractional digits the denominator is 1, 10 or 100. -/
theorem pow_length_cases (fp : List Char) (h : fp.length ≤ 2) :
    10 ^ fp.length = 1 ∨ 10 ^ fp.length = 10 ∨ 10 ^ fp.length = 100 := by
  have : fp.length = 0 ∨ fp.length = 1 ∨ fp.length = 2 := by omega
  rcases this with h | h | h <;> rw [h] <;> simp

/-- A decimal below `2^47` parses without an error. -/
theorem ParseFloat_decimal_small (ip fp : List Char) (hwf : wellFormedDecimal ip fp = true)
    (hsmall : digitsValue (ip ++ fp) < 2 ^ 47 * 10 ^ fp.length) :
    strconv.ParseFloat (decimalText ip fp) =
      (Float64.ofFrac false (digitsValue (ip ++ fp)) (10 ^ fp.length), none) := by
  rw [ParseFloat_decimal ip fp hwf]
  congr 1
  by_cases hn : digitsValue (ip ++ fp) = 0
  · rw [hn]
    simp [Float64.ofFrac, Float64.isInf]
  · obtain ⟨k, m, -, -, -, -, -, -, h8⟩ := Float64.ofFrac_small false (digitsValue (ip ++ fp))
      (10 ^ fp.length) (by omega) (Nat.pos_pow_of_pos _ (by decide)) hsmall
    rw [h8]
    split <;> simp [Float64.isInf]

/-- C4, amended. For a total that is a well-formed non-negative decimal
number with at most two fractional digits and a value below `2^47`,
`calculatePoints` is the wrapped sum of the rules in which Rule 2 counts 50
exactly when the fractional digits of the total are all zero. -/
theorem calculatePoints_rule2_decimal (r : Receipt) (ip fp : List Char)
    (hwf : wellFormedDecimal ip fp = true) (hfp : fp.length ≤ 2)
    (htotal : r.Total = decimalText ip fp)
    (hsmall : digitsValue (ip ++ fp) < 2 ^ 47 * 10 ^ fp.length) :
    calculatePoints r = wrapInt (rule1Points r.Retailer
      + (if digitsValue fp = 0 then 50 else 0)
      + rule3Points (strconv.ParseFloat r.Total).1
      + rule4Points r.Items + rule5Points r.Items + rule6Points r.PurchaseDate
      + rule7Points r.PurchaseTime) := by
  have hp := ParseFloat_decimal_small ip fp hwf hsmall
  rw [← htotal] at hp
  rw [calculatePoints_eq_sum r _ hp, hp]
  rw [rule2Points_ofFrac _ _ (pow_length_cases fp hfp) hsmall]
  have hlt : digitsValue fp < 10 ^ fp.length := by
    simp only [wellFormedDecimal, Bool.and_eq_true] at hwf
    exact digitsValue_lt fp hwf.2
  have hiff : 10 ^ fp.length ∣ digitsValue (ip ++ fp) ↔ digitsValue fp = 0 := by
    rw [digitsValue_append]
    constructor
    · intro h
      have h2 : 10 ^ fp.length ∣ digitsValue fp :=
        (Nat.dvd_add_right (Dvd.intro_left _ rfl)).1 h
      exact Nat.eq_zero_of_dvd_of_lt h2 hlt
    · intro h
      rw [h, Nat.add_zero]
      exact Dvd.intro_left _ rfl
  simp only [hiff]

/-- C5, amended. For a total that is a well-formed non-negative decimal
number with at most two fractional digits and a value below `2^47`,
`calculatePoints` is the wrapped sum of the rules in which Rule 3 counts 25
exactly when the decimal value `digitsValue (ip ++ fp) / 10 ^ fp.length` of
the total is a multiple of one quarter. -/
theorem calculatePoints_rule3_decimal (r : Receipt) (ip fp : List Char)
    (hwf : wellFormedDecimal ip fp = true) (hfp : fp.length ≤ 2)
    (htotal : r.Total = decimalText ip fp)
    (hsmall : digitsValue (ip ++ fp) < 2 ^ 47 * 10 ^ fp.length) :
    calculatePoints r = wrapInt (rule1Points r.Retailer
      + rule2Points (strconv.ParseFloat r.Total).1
      + (if 10 ^ fp.length ∣ 4 * digitsValue (ip ++ fp) then 25 else 0)
      + rule4Points r.Items + rule5Points r.Items + rule6Points r.PurchaseDate
      + rule7Points r.PurchaseTime) := by
  have hp := ParseFloat_decimal_small ip fp hwf hsmall
  rw [← htotal] at hp
  rw [calculatePoints_eq_sum r _ hp, hp]
  rw [rule3Points_ofFrac _ _ (pow_length_cases fp hfp) hsmall]

theorem calculatePoints_rule2_decimal_witness :
    calculatePoints ⟨"M&M Corner Market", "2022-03-20", "14:33", "9.00",
      [⟨"Gatorade", "2.25"⟩, ⟨"Gatorade", "2.25"⟩, ⟨"Gatorade", "2.25"⟩, ⟨"Gatorade", "2.25"⟩]⟩
      = 109 :=
  (calculatePoints_rule2_decimal _ ['9'] ['0', '0'] (by decide) (by decide) (by decide)
    (by decide)).trans (by decide!)

/-- C4 as stated fails on three totals, each a well-formed non-negative
decimal number on a receipt with nothing else to score: the whole number
`10000000000000000000` gets no 50 points (the score is the 25 of Rule 3);
`140737488355328.01` and `1.00000000000000000000001` have a fraction that is
not zero and get the 50 points (the score is 50 + 25). -/
theorem calculatePoints_rule2_counterexample :
    (wellFormedDecimal "10000000000000000000".toList [] = true ∧
      decimalText "10000000000000000000".toList [] = "10000000000000000000" ∧
      digitsValue [] = 0 ∧
      rule2Points (strconv.ParseFloat "10000000000000000000").1 = 0 ∧
      calculatePoints ⟨"", "", "", "10000000000000000000", []⟩ = 25) ∧
    (wellFormedDecimal "140737488355328".toList "01".toList = true ∧
      decimalText "140737488355328".toList "01".toList = "140737488355328.01" ∧
      digitsValue "01".toList ≠ 0 ∧
      rule2Points (strconv.ParseFloat "140737488355328.01").1 = 50 ∧
      calculatePoints ⟨"", "", "", "140737488355328.01", []⟩ = 75) ∧
    (wellFormedDecimal "1".toList "00000000000000000000001".toList = true ∧
      decimalText "1".toList "00000000000000000000001".toList = "1.00000000000000000000001" ∧
      digitsValue "00000000000000000000001".toList ≠ 0 ∧
      rule2Points (strconv.ParseFloat "1.00000000000000000000001").1 = 50 ∧
      calculatePoints ⟨"", "", "", "1.00000000000000000000001", []⟩ = 75) := by
  decide!

theorem calculatePoints_rule3_decimal_witness :
    calculatePoints ⟨"Target", "2022-01-01", "13:01", "35.25",
      [⟨"Mountain Dew 12PK", "6.49"⟩, ⟨"Emils Cheese Pizza", "12.25"⟩]⟩ = 45 :=
  (calculatePoints_rule3_decimal _ ['3', '5'] ['2', '5'] (by decide) (by decide) (by decide)
    (by decide)).trans (by decide!)

/-- C5 as stated fails on the total `140737488355328.01`, a well-formed
non-negative decimal number with two fractional digits that is not a multiple
of 0.25: it parses to `2^47`, so Rule 3 adds its 25 points (and Rule 2 its 50). -/
theorem calculatePoints_rule3_counterexample :
    wellFormedDecimal "140737488355328".toList "01".toList = true ∧
    decimalText "140737488355328".toList "01".toList = "140737488355328.01" ∧
    ¬ (10 ^ 2 ∣ 4 * digitsValue "14073748835532801".toList) ∧
    (strconv.ParseFloat "140737488355328.01").1 = Float64.finite false (2 ^ 52) (-5) ∧
    rule3Points (strconv.ParseFloat "140737488355328.01").1 = 25 ∧
    calculatePoints ⟨"", "", "", "140737488355328.01", []⟩ = 75 := by
  decide!

/-! ## Rule 7 -/

theorem digit_toNat (c : Char) (h : time.isDigit c = true) : 48 ≤ c.toNat ∧ c.toNat ≤ 57 := by
  rw [strconv.isDigit_iff] at h
  have h1 : '0'.toNat ≤ c.toNat := h.1
  have h2 : c.toNat ≤ '9'.toNat := h.2
  exact ⟨h1, h2⟩

theorem char_eq_of_toNat (c d : Char) (h : c.toNat = d.toNat) : c = d := by
  apply Char.ext
  apply UInt32.ext
  exact h

theorem digitVal_eq (c : Char) : strconv.digitVal c = c.toNat - 48 := rfl

theorem getnum_fixed (s : List Char) (n : Nat) (rest : List Char)
    (h : time.getnum s true = some (n, rest)) :
    ∃ a b, s = a :: b :: rest ∧ time.isDigit a = true ∧ time.isDigit b = true ∧
      n = strconv.digitVal a * 10 + strconv.digitVal b := by
  match s, h with
  | [], h => simp [time.getnum] at h
  | [a], h => simp [time.getnum] at h
  | a :: b :: r, h =>
    by_cases ha : time.isDigit a = true <;> by_cases hb : time.isDigit b = true <;>
      simp [time.getnum, ha, hb] at h
    exact ⟨a, b, by rw [h.2], ha, hb, h.1.symm⟩

theorem getnum_free (s : List Char) (n : Nat) (rest : List Char)
    (h : time.getnum s false = some (n, rest)) :
    (∃ a b, s = a :: b :: rest ∧ time.isDigit a = true ∧ time.isDigit b = true ∧
      n = strconv.digitVal a * 10 + strconv.digitVal b) ∨
    (∃ a, s = a :: rest ∧ time.isDigit a = true ∧ n = strconv.digitVal a) := by
  match s, h with
  | [], h => simp [time.getnum] at h
  | [a], h =>
    simp [time.getnum] at h
    exact Or.inr ⟨a, by rw [h.2.2], h.1, h.2.1.symm⟩
  | a :: b :: r, h =>
    by_cases ha : time.isDigit a = true <;> by_cases hb : time.isDigit b = true <;>
      simp [time.getnum, ha, hb] at h
    · exact Or.inl ⟨a, b, by rw [h.2], ha, hb, h.1.symm⟩
    · exact Or.inr ⟨a, by rw [h.2], ha, h.1.symm⟩

/-- What `time.ParseClock` accepts, taken apart. -/
theorem ParseClock_some (s : String) (c : time.Clock) (h : time.ParseClock s = some c) :
    ∃ rest m1 m2, time.getnum s.toList false = some (c.hour, ':' :: [m1, m2]) ∧
      rest = [m1, m2] ∧ time.isDigit m1 = true ∧ time.isDigit m2 = true ∧
      c.minute = strconv.digitVal m1 * 10 + strconv.digitVal m2 ∧ c.minute < 60 ∧ c.hour < 24 := by
  unfold time.ParseClock at h
  split at h
  · simp at h
  · rename_i hour rest hg
    split at h
    · simp at h
    · rename_i hhour
      split at h
      · rename_i rest1
        split at h
        · simp at h
        · rename_i minute rest2 hg2
          split at h
          · simp at h
          · rename_i hmin
            split at h
            · simp at h
            · rename_i hrest
              simp only [Option.some.injEq] at h
              subst h
              have hrest2 : rest2 = [] := by simpa using hrest
              subst hrest2
              obtain ⟨m1, m2, hr1, hm1, hm2, hmv⟩ := getnum_fixed _ _ _ hg2
              subst hr1
              exact ⟨[m1, m2], m1, m2, hg, rfl, hm1, hm2, hmv, by simpa using hmin,
                by simpa using hhour⟩
      · simp at h

theorem ParseClock_hour14 (s : String) (c : time.Clock) (h : time.ParseClock s = some c)
    (h14 : c.hour = 14) : isHour14 s = true := by
  obtain ⟨rest, m1, m2, hg, -, hm1, hm2, hmv, hmin, -⟩ := ParseClock_some s c h
  rw [h14] at hg
  rcases getnum_free _ _ _ hg with ⟨a, b, hs, ha, hb, hv⟩ | ⟨a, hs, ha, hv⟩
  · have da := digit_toNat a ha
    have db := digit_toNat b hb
    rw [digitVal_eq, digitVal_eq] at hv
    have ea : a = '1' := char_eq_of_toNat _ _ (by
      show a.toNat = 49
      omega)
    have eb : b = '4' := char_eq_of_toNat _ _ (by
      show b.toNat = 52
      omega)
    subst ea eb
    unfold isHour14
    rw [hs]
    simp [hm1, hm2]
    omega
  · have da := digit_toNat a ha
    rw [digitVal_eq] at hv
    omega

theorem ParseClock_of_isHour14 (s : String) (h : isHour14 s = true) :
    ∃ c, time.ParseClock s = some c ∧ c.hour = 14 := by
  unfold isHour14 at h
  split at h
  · rename_i h1 h2 colon m1 m2 hs
    simp only [Bool.and_eq_true, decide_eq_true_eq] at h
    obtain ⟨⟨⟨⟨⟨e1, e2⟩, e3⟩, d1⟩, d2⟩, hle⟩ := h
    subst e1 e2 e3
    refine ⟨⟨14, strconv.digitVal m1 * 10 + strconv.digitVal m2⟩, ?_, rfl⟩
    unfold time.ParseClock
    rw [hs]
    have g1 : time.getnum ['1', '4', ':', m1, m2] false = some (14, [':', m1, m2]) := by
      have i1 : time.isDigit '1' = true := by decide
      have i4 : time.isDigit '4' = true := by decide
      have v : strconv.digitVal '1' * 10 + strconv.digitVal '4' = 14 := by decide
      simp [time.getnum, i1, i4, v]
    have g2 : time.getnum [m1, m2] true
        = some (strconv.digitVal m1 * 10 + strconv.digitVal m2, []) := by
      simp [time.getnum, d1, d2]
    simp only [g1, g2]
    have : ¬ (60 ≤ strconv.digitVal m1 * 10 + strconv.digitVal m2) := by omega
    simp [this]
  · simp at h

/-- Rule 7 gives its 10 points exactly to the times `14:00` through `14:59`. -/
theorem rule7Points_eq (s : String) : rule7Points s = if isHour14 s = true then 10 else 0 := by
  unfold rule7Points
  by_cases h : isHour14 s = true
  · obtain ⟨c, hc, h14⟩ := ParseClock_of_isHour14 s h
    rw [hc, if_pos h]
    simp [h14]
  · rw [if_neg h]
    split
    · rename_i c hc
      split
      · rename_i h14
        exact absurd (ParseClock_hour14 s c hc h14) h
      · rfl
    · rfl

/-- C9. Rule 7 as the specification states it: when the total parses,
`calculatePoints` is the wrapped sum of the rules in which Rule 7 counts 10
exactly when the purchase time is one of `14:00` through `14:59`; every other
purchase time, parsable or not, counts 0 there, and the other rules are scored
all the same. -/
theorem calculatePoints_rule7 (r : Receipt) (hparse : (strconv.ParseFloat r.Total).2 = none) :
    calculatePoints r = wrapInt (rule1Points r.Retailer
      + rule2Points (strconv.ParseFloat r.Total).1
      + rule3Points (strconv.ParseFloat r.Total).1
      + rule4Points r.Items + rule5Points r.Items + rule6Points r.PurchaseDate
      + (if isHour14 r.PurchaseTime = true then 10 else 0)) := by
  have hp : strconv.ParseFloat r.Total = ((strconv.ParseFloat r.Total).1, none) := by
    rw [← hparse]
  rw [calculatePoints_eq_sum r _ hp, rule7Points_eq]

theorem calculatePoints_rule7_witness :
    calculatePoints ⟨"M&M Corner Market", "2022-03-20", "14:33", "9.00",
      [⟨"Gatorade", "2.25"⟩, ⟨"Gatorade", "2.25"⟩]⟩ = 104 :=
  (calculatePoints_rule7 _ (by decide)).trans (by decide!)

/-- C10. Rule 7 as the comment in the code states it ("between 2:00 PM and
4:00 PM") does not hold of the code: `15:30` parses as a time, its hour is
15, and Rule 7 adds nothing; the receipt below scores only the one point of
its retailer name. -/
theorem calculatePoints_at_1530 :
    time.ParseClock "15:30" = some ⟨15, 30⟩ ∧
    (strconv.ParseFloat "1.10").2 = none ∧
    rule7Points "15:30" = 0 ∧
    calculatePoints ⟨"A", "2022-03-20", "15:30", "1.10", []⟩ = 1 := by
  decide!

/-! ## Rule 5 -/

/-- C8. An out-of-range price is not scored as zero: for `1e999`
`strconv.ParseFloat` returns `+Inf` together with its range error, the code
drops the error and keeps the value, and the item adds
`int(math.Ceil(+Inf * 0.2))`, here the least `int`, to the score. -/
theorem calculatePoints_price_out_of_range :
    strconv.ParseFloat "1e999" = (Float64.inf false, some strconv.NumError.ErrRange) ∧
    (strconv.ParseFloat "1.10").2 = none ∧
    itemQualifies ⟨"", "1e999"⟩ = true ∧
    itemPoints ⟨"", "1e999"⟩ = minInt ∧
    calculatePoints ⟨"A", "2022-03-20", "15:30", "1.10", [⟨"", "1e999"⟩]⟩
      = -9223372036854775807 ∧
    calculatePoints ⟨"A", "2022-03-20", "15:30", "1.10", []⟩ = 1 := by
  decide!

/-- A price that is not a number at all is scored as zero. -/
theorem itemPoints_of_ErrSyntax (item : Item)
    (h : (strconv.ParseFloat item.Price).2 = some strconv.NumError.ErrSyntax) :
    itemPoints item = 0 := by
  have hz : (strconv.ParseFloat item.Price).1 = Float64.zero := by
    unfold strconv.ParseFloat at h ⊢
    simp only at h ⊢
    cases hs : strconv.special item.Price.toList with
    | some p =>
      obtain ⟨v, n⟩ := p
      simp only [hs] at h ⊢
      by_cases hn : n = item.Price.toList.length
      · simp [hn] at h
      · rw [if_neg hn]
    | none =>
      simp only [hs] at h ⊢
      cases hr : strconv.readFloat item.Price.toList with
      | none => rfl
      | some rf =>
        simp only [hr] at h ⊢
        by_cases hrest : rf.rest ≠ []
        · rw [if_pos hrest]
        · simp only [hrest, if_false] at h
          split at h <;> simp at h
  unfold itemPoints
  rw [hz]
  decide!

theorem rule5Points_eq_filter (items : List Item) :
    rule5Points items = ((items.filter itemQualifies).map itemPoints).sum := by
  unfold rule5Points
  induction items with
  | nil => rfl
  | cons item rest ih =>
    by_cases hq : itemQualifies item = true
    · simp [hq, ih]
    · simp [hq, ih]

theorem rule5Points_append (xs ys : List Item) :
    rule5Points (xs ++ ys) = rule5Points xs + rule5Points ys := by
  simp [rule5Points]

theorem dropWhile_all (p : Char → Bool) (l : List Char) (h : ∀ c ∈ l, p c = true) :
    l.dropWhile p = [] := by
  induction l with
  | nil => rfl
  | cons c cs ih =>
    rw [List.dropWhile_cons, if_pos (h c (List.mem_cons_self _ _))]
    exact ih (fun d hd => h d (List.mem_cons_of_mem _ hd))

theorem itemQualifies_of_blank (item : Item)
    (h : ∀ c ∈ item.ShortDescription.toList, unicode.IsSpace c = true) :
    itemQualifies item = true := by
  unfold itemQualifies strings.TrimSpace
  rw [dropWhile_all _ _ h]
  decide

/-- C6 as stated fails when the length is counted in characters. The
trimmed description `éa` has 2 characters and 3 bytes: the code scores the
item (2 points for the price 10.00). The trimmed description `aaé` has 3
characters and 4 bytes: the code does not score it. -/
theorem calculatePoints_rule5_counterexample :
    ((strings.TrimSpace "éa").length = 2 ∧ (strings.TrimSpace "éa").utf8ByteSize = 3 ∧
      (strconv.ParseFloat "1.10").2 = none ∧
      calculatePoints ⟨"", "", "", "1.10", [⟨"éa", "10.00"⟩]⟩ = 2) ∧
    ((strings.TrimSpace "aaé").length = 3 ∧ (strings.TrimSpace "aaé").utf8ByteSize = 4 ∧
      calculatePoints ⟨"", "", "", "1.10", [⟨"aaé", "10.00"⟩]⟩ = 0) := by
  decide!

/-! ## Rule 5 on decimal prices -/

namespace Float64

/-- Rounding a positive fraction below `2^47`, with the renormalised case
folded in: the result is `m * 2^(-k)`, within half a unit in the last place
of the fraction, exact when the fraction is an integer. -/
theorem ofFrac_small_unified (num den : Nat) (hn : 0 < num) (hd : 0 < den)
    (hsmall : num < 2 ^ 47 * den) :
    ∃ (k m : Nat),
      5 ≤ k ∧
      2 * (m * den) ≤ 2 * (num * 2 ^ k) + den ∧
      2 * (num * 2 ^ k) ≤ 2 * (m * den) + den ∧
      (2 ^ 51 * den ≤ num * 2 ^ k ∨ 1073 ≤ k) ∧
      num * 2 ^ k < 2 ^ 53 * den ∧
      (den ∣ num → m * den = num * 2 ^ k) ∧
      m < 2 ^ 53 ∧
      ofFrac false num den = finite false m (-(k : Int)) := by
  obtain ⟨e, m, h1, h2, h3, h4, h5, h6, h7, h8⟩ := ofFrac_spec false num den hn hd
  have heneg : e < 0 := by
    by_contra hge
    obtain ⟨s1, s2⟩ := scale_of_nonneg num den e (by omega)
    rw [s1, s2] at h3
    rcases h3 with h3 | h3
    · have : den * 1 ≤ den * 2 ^ e.toNat := Nat.mul_le_mul_left den (Nat.two_pow_pos _)
      omega
    · omega
  obtain ⟨s1, s2⟩ := scale_of_neg num den e heneg
  rw [s1, s2] at h2 h3 h4 h5 h6
  generalize hk : (-e).toNat = k at *
  have hek : e = -(k : Int) := by omega
  have hk6 : 6 ≤ k := by
    rcases h3 with h3 | h3
    · by_contra hlt
      have hk5 : k ≤ 5 := by omega
      have : (2 : Nat) ^ k ≤ 2 ^ 5 := Nat.pow_le_pow_right (by decide) hk5
      have h9 : num * 2 ^ k ≤ num * 2 ^ 5 := Nat.mul_le_mul_left num this
      omega
    · omega
  have hexact : den ∣ num → m * den = num * 2 ^ k := by
    intro hdvd
    have hdvd2 : den ∣ num * 2 ^ k := Dvd.dvd.mul_right hdvd _
    rw [h6 hdvd2]
    exact Nat.div_mul_cancel hdvd2
  have e2 : ¬ (971 < e) := by omega
  have e1 : ¬ (971 < e + 1) := by omega
  by_cases hm : m = 2 ^ 53
  · -- renormalised: mantissa 2^52 at the next exponent
    have hk1 : k = (k - 1) + 1 := by omega
    have ha : 2 ^ k = 2 * 2 ^ (k - 1) := by
      conv_lhs => rw [hk1, pow_succ]
      ring
    have hna : num * 2 ^ k = 2 * (num * 2 ^ (k - 1)) := by rw [ha]; ring
    rw [hna] at h2 h3 h4 h5
    rw [hm] at h4 h5
    refine ⟨k - 1, 2 ^ 52, by omega, by omega, by omega, ?_, by omega, ?_, by decide, ?_⟩
    · rcases h3 with h3 | h3
      · exact Or.inl (by omega)
      · exact Or.inr (by omega)
    · intro hdvd
      have := hexact hdvd
      rw [hm, hna] at this
      omega
    · rw [h8, if_pos hm, if_neg e1]
      congr 1
      omega
  · refine ⟨k, m, by omega, h4, h5, ?_, h2, hexact, by omega, ?_⟩
    · rcases h3 with h3 | h3
      · exact Or.inl (by omega)
      · exact Or.inr (by omega)
    · rw [h8, if_neg hm, if_neg e2, hek]

theorem fifth_eq : fifth = finite false 7205759403792794 (-((55 : Nat) : Int)) := by decide

/-- Multiplying a finite value by the constant `0.2`. -/
theorem mul_fifth (m k : Nat) :
    mul (finite false m (-(k : Int))) fifth
      = ofFrac false (m * 7205759403792794) (2 ^ k * 2 ^ 55) := by
  rw [fifth_eq]
  have h1 : -(-(k : Int) + -((55 : Nat) : Int)) = ((k + 55 : Nat) : Int) := by
    push_cast
    ring
  have h2 : (false != false) = false := rfl
  show ofFrac (false != false)
      (scaleNum (m * 7205759403792794) (-(-(k : Int) + -((55 : Nat) : Int))))
      (scaleDen 1 (-(-(k : Int) + -((55 : Nat) : Int)))) = _
  rw [h1, h2]
  obtain ⟨s1, s2⟩ := scale_of_nonneg (m * 7205759403792794) 1 ((k + 55 : Nat) : Int)
    (Int.ofNat_nonneg _)
  rw [s1, s2, Int.toNat_ofNat, pow_add, Nat.one_mul]

end Float64

open Float64 in
theorem toInt_finite_zero (t : Nat) (hlt : t < 2 ^ 63) :
    toInt (finite false t 0) = (t : Int) := by
  unfold toInt
  simp only [lt_self_iff_false, if_false, Int.toNat_zero, pow_zero, Nat.mul_one,
    Bool.false_eq_true]
  have h1 : minInt ≤ (t : Int) := by unfold minInt; omega
  have h2 : (t : Int) ≤ maxInt := by unfold maxInt; omega
  rw [if_pos ⟨h1, h2⟩]

open Float64 in
/-- Rounding up and converting to `int` gives the ceiling of `M / 2^K`. -/
theorem toInt_Ceil_finite (M K : Nat) (hM : M < 2 ^ 62) :
    toInt (math.Ceil (finite false M (-(K : Int)))) = (((M + 2 ^ K - 1) / 2 ^ K : Nat) : Int) := by
  have hpos : 0 < 2 ^ K := Nat.two_pow_pos K
  have hdm : 2 ^ K * (M / 2 ^ K) + M % 2 ^ K = M := Nat.div_add_mod M (2 ^ K)
  have hr : M % 2 ^ K < 2 ^ K := Nat.mod_lt M hpos
  have hq : M / 2 ^ K ≤ M := Nat.div_le_self _ _
  by_cases hK : K = 0
  · subst hK
    have h0 : -((0 : Nat) : Int) = 0 := by simp
    have hc : math.Ceil (finite false M 0) = finite false M 0 := by simp [math.Ceil]
    rw [h0, hc, toInt_finite_zero M (by omega)]
    simp
  · have hneg : -(K : Int) < 0 := by omega
    have hKK : (-(-(K : Int))).toNat = K := by omega
    unfold math.Ceil
    simp only [hneg, if_true, hKK]
    by_cases hr0 : M % 2 ^ K = 0
    · rw [if_pos hr0]
      have hdiv : (M + 2 ^ K - 1) / 2 ^ K = M / 2 ^ K := by
        apply Nat.div_eq_of_lt_le
        · rw [Nat.mul_comm]; omega
        · rw [Nat.succ_mul, Nat.mul_comm]; omega
      rw [hdiv]
      exact toInt_finite_neg M K (M / 2 ^ K) (by omega) rfl (by omega)
    · rw [if_neg hr0]
      simp only [Bool.false_eq_true, if_false]
      have hdiv : (M + 2 ^ K - 1) / 2 ^ K = M / 2 ^ K + 1 := by
        apply Nat.div_eq_of_lt_le
        · rw [Nat.add_mul, Nat.mul_comm]; omega
        · rw [Nat.succ_mul, Nat.add_mul, Nat.mul_comm]; omega
      rw [hdiv]
      exact toInt_finite_zero _ (by omega)

/-- From `2 * (m * D) ≤ 2 * (n * a) + D` to `m / a ≤ n / D + (1 / a) / 2`. -/
theorem ratio_le_of_round (m D n a : Nat) (hD : 0 < D) (ha : 0 < a)
    (h : 2 * (m * D) ≤ 2 * (n * a) + D) :
    (m : ℚ) / a ≤ (n : ℚ) / D + 1 / a / 2 := by
  have hD' : (0 : ℚ) < D := by exact_mod_cast hD
  have ha' : (0 : ℚ) < a := by exact_mod_cast ha
  have h' : (2 * (m * D) : ℚ) ≤ 2 * (n * a) + D := by exact_mod_cast h
  have e : (n : ℚ) / D + 1 / a / 2 = (2 * (n * a) + D) / (2 * (D * a)) := by
    field_simp
    ring
  rw [e, div_le_div_iff ha' (by positivity)]
  nlinarith [mul_le_mul_of_nonneg_right h' ha'.le]

/-- From `2 * (n * a) ≤ 2 * (m * D) + D` to `n / D ≤ m / a + (1 / a) / 2`. -/
theorem ratio_ge_of_round (m D n a : Nat) (hD : 0 < D) (ha : 0 < a)
    (h : 2 * (n * a) ≤ 2 * (m * D) + D) :
    (n : ℚ) / D ≤ (m : ℚ) / a + 1 / a / 2 := by
  have hD' : (0 : ℚ) < D := by exact_mod_cast hD
  have ha' : (0 : ℚ) < a := by exact_mod_cast ha
  have h' : (2 * (n * a) : ℚ) ≤ 2 * (m * D) + D := by exact_mod_cast h
  have e : (m : ℚ) / a + 1 / a / 2 = (2 * m + 1) / (2 * a) := by
    field_simp
    ring
  rw [e, div_le_div_iff hD' (by positivity)]
  nlinarith [mul_le_mul_of_nonneg_right h' ha'.le]

/-- From `c * den ≤ num * a` to `1 / a ≤ (num / den) / c`. -/
theorem inv_le_of_normal (c den num a : Nat) (hc : 0 < c) (hden : 0 < den) (ha : 0 < a)
    (h : c * den ≤ num * a) : (1 : ℚ) / a ≤ ((num : ℚ) / den) / c := by
  have hc' : (0 : ℚ) < c := by exact_mod_cast hc
  have hd' : (0 : ℚ) < den := by exact_mod_cast hden
  have ha' : (0 : ℚ) < a := by exact_mod_cast ha
  have h' : (c * den : ℚ) ≤ num * a := by exact_mod_cast h
  rw [div_div, div_le_div_iff ha' (by positivity)]
  linarith

/-- From `num * b < c * den` to `num / den < c * (1 / b)`. -/
theorem ratio_lt_of_normal (c den num b : Nat) (hden : 0 < den) (hb : 0 < b)
    (h : num * b < c * den) : (num : ℚ) / den < c * (1 / b) := by
  have hd' : (0 : ℚ) < den := by exact_mod_cast hden
  have hb' : (0 : ℚ) < b := by exact_mod_cast hb
  have h' : (num * b : ℚ) < c * den := by exact_mod_cast h
  rw [mul_one_div, div_lt_div_iff hd' hb']
  linarith

/-- The error analysis of Rule 5 when the price is not a multiple of 5:
`q` the price, `X` its binary64 value, `Y` the rounded product with `0.2`,
`u` and `v` the units in the last place, `T` the ceiling of `q / 5`. -/
theorem ceil_bounds_of_gap (X q Y u v T : ℚ)
    (f1 : X ≤ q + u / 2) (f2 : q ≤ X + u / 2)
    (g1 : Y ≤ X * (7205759403792794 / 2 ^ 55) + v / 2)
    (g2 : X * (7205759403792794 / 2 ^ 55) ≤ Y + v / 2)
    (hu : u ≤ 1 / 2 ^ 7) (hv : v ≤ 1 / 2 ^ 9) (hv0 : 0 ≤ v)
    (hq : q < 2 ^ 44) (hq0 : 0 ≤ q)
    (s1 : q + 1 / 100 ≤ 5 * T) (s2 : 5 * T + 1 / 100 ≤ q + 5) :
    T < Y + 1 ∧ Y < T + v := by
  norm_num at *
  constructor <;> linarith

/-- The error analysis of Rule 5 when the price is `5 * c`. -/
theorem ceil_bounds_of_exact (c Y v : ℚ)
    (g1 : Y ≤ 5 * c * (7205759403792794 / 2 ^ 55) + v / 2)
    (g2 : 5 * c * (7205759403792794 / 2 ^ 55) ≤ Y + v / 2)
    (g4 : 5 * c * (7205759403792794 / 2 ^ 55) < 2 ^ 53 * v)
    (hv : v ≤ 1 / 2 ^ 9) (hc : 0 ≤ c) :
    c < Y + 1 ∧ Y < c + v := by
  norm_num at *
  constructor <;> linarith

/-- The error analysis behind Rule 5 on a decimal price `n / D` below `2^44`:
if `m / a` is `n / D` rounded and `m2 / b` is `(m / a) * 0.2` rounded (`0.2`
being the binary64 constant `7205759403792794 / 2^55`), then `m2 / b` lies
in `(T - 1, T]` for `T` the ceiling of `n / (5 * D)`. -/
theorem ceil_core (n D m a m2 b T : Nat)
    (hD : D = 1 ∨ D = 10 ∨ D = 100) (hsmall : n < 2 ^ 44 * D)
    (ha : 0 < a) (hb : 0 < b)
    (x1 : 2 * (m * D) ≤ 2 * (n * a) + D) (x2 : 2 * (n * a) ≤ 2 * (m * D) + D)
    (x3 : 2 ^ 51 * D ≤ n * a ∨ 2 ^ 60 ≤ a) (x5 : D ∣ n → m * D = n * a)
    (y1 : 2 * (m2 * (a * 2 ^ 55)) ≤ 2 * (m * 7205759403792794 * b) + a * 2 ^ 55)
    (y2 : 2 * (m * 7205759403792794 * b) ≤ 2 * (m2 * (a * 2 ^ 55)) + a * 2 ^ 55)
    (y3 : 2 ^ 51 * (a * 2 ^ 55) ≤ m * 7205759403792794 * b ∨ 2 ^ 60 ≤ b)
    (y4 : m * 7205759403792794 * b < 2 ^ 53 * (a * 2 ^ 55))
    (hT1 : n ≤ 5 * D * T) (hT2 : 5 * D * T < n + 5 * D) :
    T * b < m2 + b ∧ m2 ≤ T * b := by
  have hD0 : 0 < D := by omega
  have hD' : (0 : ℚ) < D := by exact_mod_cast hD0
  have ha' : (0 : ℚ) < a := by exact_mod_cast ha
  have hb' : (0 : ℚ) < b := by exact_mod_cast hb
  have hden2 : 0 < a * 2 ^ 55 := Nat.mul_pos ha (Nat.two_pow_pos 55)
  have hW : ((m * 7205759403792794 : Nat) : ℚ) / ((a * 2 ^ 55 : Nat) : ℚ)
      = (m : ℚ) / a * (7205759403792794 / 2 ^ 55) := by
    push_cast
    rw [mul_div_mul_comm]
    norm_num
  -- the rounding facts, as ratios
  have f1 := ratio_le_of_round m D n a hD0 ha x1
  have f2 := ratio_ge_of_round m D n a hD0 ha x2
  have g1 := ratio_le_of_round m2 (a * 2 ^ 55) (m * 7205759403792794) b hden2 hb y1
  have g2 := ratio_ge_of_round m2 (a * 2 ^ 55) (m * 7205759403792794) b hden2 hb y2
  have g4 := ratio_lt_of_normal (2 ^ 53) (a * 2 ^ 55) (m * 7205759403792794) b hden2 hb y4
  rw [hW] at g1 g2 g4
  have h253 : ((2 ^ 53 : Nat) : ℚ) = 2 ^ 53 := by push_cast; rfl
  rw [h253] at g4
  have hq : (n : ℚ) / D < 2 ^ 44 := by
    rw [div_lt_iff hD']
    exact_mod_cast hsmall
  have hq0 : (0 : ℚ) ≤ (n : ℚ) / D := by positivity
  have hu0 : (0 : ℚ) ≤ 1 / a := by positivity
  have hv0 : (0 : ℚ) ≤ 1 / b := by positivity
  have hu : (1 : ℚ) / a ≤ 1 / 2 ^ 7 := by
    rcases x3 with x3 | x3
    · have h := inv_le_of_normal (2 ^ 51) D n a (by decide) hD0 ha x3
      have h251 : ((2 ^ 51 : Nat) : ℚ) = 2 ^ 51 := by push_cast; rfl
      rw [h251] at h
      generalize (n : ℚ) / D = q at *
      generalize (1 : ℚ) / a = u at *
      norm_num at *
      linarith
    · have h60 : (2 : ℚ) ^ 60 ≤ a := by exact_mod_cast x3
      rw [div_le_div_iff ha' (by positivity)]
      linarith
  have hv : (1 : ℚ) / b ≤ 1 / 2 ^ 9 := by
    rcases y3 with y3 | y3
    · have h := inv_le_of_normal (2 ^ 51) (a * 2 ^ 55) (m * 7205759403792794) b (by decide)
        hden2 hb y3
      have h251 : ((2 ^ 51 : Nat) : ℚ) = 2 ^ 51 := by push_cast; rfl
      rw [hW, h251] at h
      generalize (n : ℚ) / D = q at *
      generalize (m : ℚ) / a = X at *
      generalize (1 : ℚ) / a = u at *
      generalize (1 : ℚ) / b = v at *
      norm_num at *
      linarith
    · have h60 : (2 : ℚ) ^ 60 ≤ b := by exact_mod_cast y3
      rw [div_le_div_iff hb' (by positivity)]
      linarith
  -- the claim, as bounds on m2 / b
  have key : (T : ℚ) < (m2 : ℚ) / b + 1 ∧ (m2 : ℚ) / b < T + 1 / b := by
    by_cases hdvd : 5 * D ∣ n
    · -- n / D = 5 * T exactly, and the first rounding is exact
      obtain ⟨c, hc⟩ := hdvd
      have hcT : c = T := by
        have h1 : 5 * D * c ≤ 5 * D * T := by omega
        have h2 : 5 * D * T < 5 * D * (c + 1) := by rw [Nat.mul_add]; omega
        have h3 := Nat.le_of_mul_le_mul_left h1 (by omega)
        have h4 := Nat.lt_of_mul_lt_mul_left h2
        omega
      subst hcT
      have hDn : D ∣ n := ⟨5 * c, by rw [hc]; ring⟩
      have hx := x5 hDn
      have hX : (m : ℚ) / a = 5 * c := by
        rw [div_eq_iff ha'.ne']
        have h1 : (m * D : ℚ) = n * a := by exact_mod_cast hx
        have h2 : (n : ℚ) = 5 * D * c := by exact_mod_cast hc
        rw [h2] at h1
        have h3 : (D : ℚ) * m = D * (5 * c * a) := by linarith
        exact mul_left_cancel₀ hD'.ne' h3
      rw [hX] at g1 g2 g4
      exact ceil_bounds_of_exact c _ _ g1 g2 g4 hv (by positivity)
    · -- n / D is at least 1 / 100 away from a multiple of 5
      have hne : n ≠ 5 * D * T := fun h => hdvd ⟨T, h⟩
      have h3 : (D : ℚ) ≤ 100 := by
        rcases hD with h | h | h <;> rw [h] <;> norm_num
      have h4 : (1 : ℚ) / 100 ≤ 1 / D := by
        rw [div_le_div_iff (by norm_num) hD']
        linarith
      have s1 : (n : ℚ) / D + 1 / 100 ≤ 5 * T := by
        have h1 : n + 1 ≤ 5 * D * T := by omega
        have h2 : (n + 1 : ℚ) ≤ 5 * D * T := by exact_mod_cast h1
        have e2 : ((n : ℚ) + 1) / D ≤ 5 * T := by
          rw [div_le_iff hD']
          linarith
        rw [add_div] at e2
        linarith
      have s2 : (5 : ℚ) * T + 1 / 100 ≤ (n : ℚ) / D + 5 := by
        have h1 : 5 * D * T + 1 ≤ n + 5 * D := by omega
        have h2 : (5 * D * T + 1 : ℚ) ≤ n + 5 * D := by exact_mod_cast h1
        have e : ((5 : ℚ) * D * T + 1) / D ≤ (n + 5 * D) / D :=
          div_le_div_of_nonneg_right h2 hD'.le
        have e1 : ((5 : ℚ) * D * T + 1) / D = 5 * T + 1 / D := by
          field_simp
          ring
        have e3 : ((n : ℚ) + 5 * D) / D = n / D + 5 := by field_simp
        rw [e1, e3] at e
        linarith
      exact ceil_bounds_of_gap _ _ _ _ _ _ f1 f2 g1 g2 hu hv hv0 hq hq0 s1 s2
  obtain ⟨k1, k2⟩ := key
  constructor
  · have h1 : (T : ℚ) * b < m2 + b := by
      have h := (lt_div_iff hb').1 (show (T : ℚ) - 1 < (m2 : ℚ) / b by linarith)
      linarith
    exact_mod_cast h1
  · have h1 : (m2 : ℚ) < T * b + 1 := by
      have h := (div_lt_iff hb').1 k2
      rw [add_mul, one_div, inv_mul_cancel₀ hb'.ne'] at h
      exact h
    have h2 : m2 < T * b + 1 := by exact_mod_cast h1
    omega

open Float64 in
/-- Rule 5 on the binary64 value nearest to `n / D`, for a denominator 1, 10
or 100 and a fraction below `2^44`: `int(math.Ceil(price * 0.2))` is the
ceiling of `n / (5 * D)`, one fifth of the price rounded up. -/
theorem toInt_Ceil_mul_fifth (n D : Nat) (hD : D = 1 ∨ D = 10 ∨ D = 100)
    (hsmall : n < 2 ^ 44 * D) :
    toInt (math.Ceil (mul (ofFrac false n D) fifth)) = (((n + 5 * D - 1) / (5 * D) : Nat) : Int) := by
  have hD0 : 0 < D := by omega
  by_cases hn : n = 0
  · subst hn
    have h0 : ofFrac false 0 D = finite false 0 (-((1074 : Nat) : Int)) := by simp [ofFrac]
    have h1 : ofFrac false (0 * 7205759403792794) (2 ^ 1074 * 2 ^ 55)
        = finite false 0 (-((1074 : Nat) : Int)) := by simp [ofFrac]
    rw [h0, mul_fifth, h1, toInt_Ceil_finite 0 1074 (by decide)]
    have e1 : (0 + 2 ^ 1074 - 1) / 2 ^ 1074 = 0 :=
      Nat.div_eq_of_lt (by have := Nat.two_pow_pos 1074; omega)
    have e2 : (0 + 5 * D - 1) / (5 * D) = 0 := Nat.div_eq_of_lt (by omega)
    rw [e1, e2]
  · obtain ⟨k, m, hk, x1, x2, x3, x4, x5, x6, hx⟩ :=
      ofFrac_small_unified n D (by omega) hD0 (by omega)
    have ha : 0 < 2 ^ k := Nat.two_pow_pos k
    have ha5 : 2 ^ 5 ≤ 2 ^ k := Nat.pow_le_pow_right (by decide) hk
    have x3' : 2 ^ 51 * D ≤ n * 2 ^ k ∨ 2 ^ 60 ≤ 2 ^ k := by
      rcases x3 with h | h
      · exact Or.inl h
      · exact Or.inr (Nat.pow_le_pow_right (by decide) (by omega))
    -- the mantissa is positive and at most 2^44 units
    have hna : n * 2 ^ k < 2 ^ 44 * D * 2 ^ k := Nat.mul_lt_mul_of_pos_right hsmall ha
    have hm_le : m ≤ 2 ^ 44 * 2 ^ k := by
      by_contra hgt
      have h1 : (2 ^ 44 * 2 ^ k + 1) * D ≤ m * D := Nat.mul_le_mul_right D (by omega)
      have h2 : (2 ^ 44 * 2 ^ k + 1) * D = 2 ^ 44 * D * 2 ^ k + D := by ring
      omega
    have hm_pos : 0 < m := by
      by_contra h0
      have hm0 : m = 0 := by omega
      rw [hm0] at x2
      have h1 : 1 * 2 ^ k ≤ n * 2 ^ k := Nat.mul_le_mul_right _ (by omega)
      rcases x3' with h | h
      · omega
      · omega
    generalize hak : 2 ^ k = a at *
    rw [hx, mul_fifth, hak]
    obtain ⟨k2, m2, hk2, y1, y2, y3, y4, -, y6, hy⟩ :=
      ofFrac_small_unified (m * 7205759403792794) (a * 2 ^ 55) (by omega) (by omega) (by omega)
    have hb : 0 < 2 ^ k2 := Nat.two_pow_pos k2
    have y3' : 2 ^ 51 * (a * 2 ^ 55) ≤ m * 7205759403792794 * 2 ^ k2 ∨ 2 ^ 60 ≤ 2 ^ k2 := by
      rcases y3 with h | h
      · exact Or.inl h
      · exact Or.inr (Nat.pow_le_pow_right (by decide) (by omega))
    rw [hy, toInt_Ceil_finite m2 k2 (by omega)]
    -- the ceiling of n / (5 * D)
    have hc : 0 < 5 * D := by omega
    have hdm := Nat.div_add_mod (n + 5 * D - 1) (5 * D)
    have hr := Nat.mod_lt (n + 5 * D - 1) hc
    generalize hT : (n + 5 * D - 1) / (5 * D) = T at *
    have hT1 : n ≤ 5 * D * T := by omega
    have hT2 : 5 * D * T < n + 5 * D := by omega
    obtain ⟨c1, c2⟩ := ceil_core n D m a m2 (2 ^ k2) T hD hsmall ha hb x1 x2 x3' x5 y1 y2 y3' y4
      hT1 hT2
    congr 1
    apply Nat.div_eq_of_lt_le
    · omega
    · rw [Nat.succ_mul]; omega

/-- A price that is a well-formed non-negative decimal number with at most
two fractional digits and a value below `2^44` is scored by Rule 5 with one
fifth of the price rounded up to the next integer. -/
theorem itemPoints_decimal (price : String) (ip fp : List Char)
    (hwf : wellFormedDecimal ip fp = true) (hfp : fp.length ≤ 2)
    (hprice : price = decimalText ip fp)
    (hsmall : digitsValue (ip ++ fp) < 2 ^ 44 * 10 ^ fp.length) :
    Float64.toInt (math.Ceil (Float64.mul (strconv.ParseFloat price).1 Float64.fifth))
      = (((digitsValue (ip ++ fp) + 5 * 10 ^ fp.length - 1) / (5 * 10 ^ fp.length) : Nat) : Int) := by
  have h47 : digitsValue (ip ++ fp) < 2 ^ 47 * 10 ^ fp.length := by
    have : 0 < 10 ^ fp.length := Nat.pos_pow_of_pos _ (by decide)
    omega
  rw [hprice, ParseFloat_decimal_small ip fp hwf h47]
  exact toInt_Ceil_mul_fifth _ _ (pow_length_cases fp hfp) hsmall

/-- C6, amended. When the total parses, the Rule 5 term of the score is the
sum, over exactly the items whose trimmed description has a length in bytes
(Go `len`) that is a multiple of 3, of `int(math.Ceil(price * 0.2))`; the
other items add nothing. For a price that is a well-formed non-negative
decimal number with at most two fractional digits and a value below `2^44`,
`int(math.Ceil(price * 0.2))` is the price times 0.2 rounded up to the next
integer, the ceiling of `digitsValue (ip ++ fp) / (5 * 10 ^ fp.length)`. -/
theorem calculatePoints_rule5 (r : Receipt) (hparse : (strconv.ParseFloat r.Total).2 = none) :
    calculatePoints r = wrapInt (rule1Points r.Retailer
      + rule2Points (strconv.ParseFloat r.Total).1
      + rule3Points (strconv.ParseFloat r.Total).1
      + rule4Points r.Items
      + ((r.Items.filter
            fun item => (strings.TrimSpace item.ShortDescription).utf8ByteSize % 3 = 0).map
          fun item => Float64.toInt
            (math.Ceil (Float64.mul (strconv.ParseFloat item.Price).1 Float64.fifth))).sum
      + rule6Points r.PurchaseDate + rule7Points r.PurchaseTime) ∧
    ∀ (item : Item) (ip fp : List Char), wellFormedDecimal ip fp = true → fp.length ≤ 2 →
      item.Price = decimalText ip fp → digitsValue (ip ++ fp) < 2 ^ 44 * 10 ^ fp.length →
      Float64.toInt (math.Ceil (Float64.mul (strconv.ParseFloat item.Price).1 Float64.fifth))
        = (((digitsValue (ip ++ fp) + 5 * 10 ^ fp.length - 1) / (5 * 10 ^ fp.length) : Nat) : Int) := by
  have hp : strconv.ParseFloat r.Total = ((strconv.ParseFloat r.Total).1, none) := by
    rw [← hparse]
  refine ⟨?_, fun item ip fp hwf hfp hprice hsmall =>
    itemPoints_decimal item.Price ip fp hwf hfp hprice hsmall⟩
  rw [calculatePoints_eq_sum r _ hp, rule5Points_eq_filter]
  rfl

theorem calculatePoints_rule5_witness :
    calculatePoints ⟨"Target", "2022-01-01", "13:01", "35.35",
      [⟨"Mountain Dew 12PK", "6.49"⟩, ⟨"Emils Cheese Pizza", "12.25"⟩,
       ⟨"   Klarbrunn 12-PK 12 FL OZ  ", "12.00"⟩]⟩ = 23 ∧
    Float64.toInt (math.Ceil (Float64.mul (strconv.ParseFloat "12.25").1 Float64.fifth)) = 3 :=
  ⟨(calculatePoints_rule5 ⟨"Target", "2022-01-01", "13:01", "35.35",
      [⟨"Mountain Dew 12PK", "6.49"⟩, ⟨"Emils Cheese Pizza", "12.25"⟩,
       ⟨"   Klarbrunn 12-PK 12 FL OZ  ", "12.00"⟩]⟩ (by decide)).1.trans (by decide!),
   ((calculatePoints_rule5 ⟨"Target", "2022-01-01", "13:01", "35.35", []⟩ (by decide)).2
      ⟨"Emils Cheese Pizza", "12.25"⟩ ['1', '2'] ['2', '5'] (by decide) (by decide) (by decide)
      (by decide)).trans (by decide)⟩

/-- C7, amended. When the total parses, an item whose description is empty or
all white space is scored by Rule 5: in the sum of the rules it stands with
`int(math.Ceil(price * 0.2))`, next to the Rule 5 points of the items before
and after it. When its price is a well-formed non-negative decimal number with
at most two fractional digits and a value below `2^44`, it stands there with
the price times 0.2 rounded up to the next integer, the ceiling of
`digitsValue (ip ++ fp) / (5 * 10 ^ fp.length)`; for the price `10.00` that is 2. -/
theorem calculatePoints_blank_description (r : Receipt) (before after : List Item) (item : Item)
    (hparse : (strconv.ParseFloat r.Total).2 = none)
    (hitems : r.Items = before ++ item :: after)
    (hblank : ∀ c ∈ item.ShortDescription.toList, unicode.IsSpace c = true) :
    calculatePoints r = wrapInt (rule1Points r.Retailer
      + rule2Points (strconv.ParseFloat r.Total).1
      + rule3Points (strconv.ParseFloat r.Total).1
      + rule4Points r.Items
      + (rule5Points before
          + Float64.toInt (math.Ceil (Float64.mul (strconv.ParseFloat item.Price).1 Float64.fifth))
          + rule5Points after)
      + rule6Points r.PurchaseDate + rule7Points r.PurchaseTime) ∧
    (∀ ip fp : List Char, wellFormedDecimal ip fp = true → fp.length ≤ 2 →
      item.Price = decimalText ip fp → digitsValue (ip ++ fp) < 2 ^ 44 * 10 ^ fp.length →
      Float64.toInt (math.Ceil (Float64.mul (strconv.ParseFloat item.Price).1 Float64.fifth))
        = (((digitsValue (ip ++ fp) + 5 * 10 ^ fp.length - 1) / (5 * 10 ^ fp.length) : Nat) : Int)
      ∧ calculatePoints r = wrapInt (rule1Points r.Retailer
        + rule2Points (strconv.ParseFloat r.Total).1
        + rule3Points (strconv.ParseFloat r.Total).1
        + rule4Points r.Items
        + (rule5Points before
            + (((digitsValue (ip ++ fp) + 5 * 10 ^ fp.length - 1) / (5 * 10 ^ fp.length) : Nat) : Int)
            + rule5Points after)
        + rule6Points r.PurchaseDate + rule7Points r.PurchaseTime)) ∧
    Float64.toInt (math.Ceil (Float64.mul (strconv.ParseFloat "10.00").1 Float64.fifth)) = 2 := by
  have hp : strconv.ParseFloat r.Total = ((strconv.ParseFloat r.Total).1, none) := by
    rw [← hparse]
  have hsum : calculatePoints r = wrapInt (rule1Points r.Retailer
      + rule2Points (strconv.ParseFloat r.Total).1
      + rule3Points (strconv.ParseFloat r.Total).1
      + rule4Points r.Items
      + (rule5Points before
          + Float64.toInt (math.Ceil (Float64.mul (strconv.ParseFloat item.Price).1 Float64.fifth))
          + rule5Points after)
      + rule6Points r.PurchaseDate + rule7Points r.PurchaseTime) := by
    rw [calculatePoints_eq_sum r _ hp, hitems, rule5Points_append]
    have h1 : rule5Points (item :: after) = itemPoints item + rule5Points after := by
      simp [rule5Points, itemQualifies_of_blank item hblank]
    rw [h1]
    unfold itemPoints
    congr 1
    ring
  refine ⟨hsum, fun ip fp hwf hfp hprice hsmall => ?_, by decide!⟩
  have hdec := itemPoints_decimal item.Price ip fp hwf hfp hprice hsmall
  refine ⟨hdec, ?_⟩
  rw [← hdec]
  exact hsum

theorem calculatePoints_blank_description_witness :
    calculatePoints ⟨"", "", "", "1.10", [⟨"ab", "3.00"⟩, ⟨" \t ", "10.00"⟩, ⟨"abc", "5.01"⟩]⟩
      = 9
    ∧ calculatePoints ⟨"", "", "", "1.10", [⟨"ab", "3.00"⟩, ⟨" \t ", "10.00"⟩, ⟨"abc", "5.01"⟩]⟩
      = wrapInt (0 + 0 + 0 + 5 + (0 + ((1000 + 5 * 10 ^ 2 - 1) / (5 * 10 ^ 2) : Nat) + 2)
          + 0 + 0) :=
  ⟨(calculatePoints_blank_description _ [⟨"ab", "3.00"⟩] [⟨"abc", "5.01"⟩] ⟨" \t ", "10.00"⟩
      (by decide) (by decide) (by decide)).1.trans (by decide!),
   (((calculatePoints_blank_description _ [⟨"ab", "3.00"⟩] [⟨"abc", "5.01"⟩] ⟨" \t ", "10.00"⟩
      (by decide) (by decide) (by decide)).2.1 ['1', '0'] ['0', '0']
      (by decide) (by decide) (by decide) (by decide)).2).trans (by decide!)⟩

/-- C7 as stated fails on prices that binary64 cannot hold. A receipt whose
total parses has one item with an empty description and the price
`140737488355330.01`, a well-formed decimal number with two fractional digits:
the price times 0.2 rounded up is 28147497671067, and the item raises the score
from 0 to 28147497671066. With the price `100000000000000000000.00` the item
brings the score to `-9223372036854775808`. -/
theorem calculatePoints_blank_description_counterexample :
    (strconv.ParseFloat "1.10").2 = none
    ∧ calculatePoints ⟨"", "", "", "1.10", []⟩ = 0
    ∧ itemQualifies ⟨"", "140737488355330.01"⟩ = true
    ∧ wellFormedDecimal "140737488355330".toList "01".toList = true
    ∧ decimalText "140737488355330".toList "01".toList = "140737488355330.01"
    ∧ (digitsValue ("140737488355330".toList ++ "01".toList) + 5 * 10 ^ 2 - 1) / (5 * 10 ^ 2)
        = 28147497671067
    ∧ calculatePoints ⟨"", "", "", "1.10", [⟨"", "140737488355330.01"⟩]⟩ = 28147497671066
    ∧ wellFormedDecimal "100000000000000000000".toList "00".toList = true
    ∧ decimalText "100000000000000000000".toList "00".toList = "100000000000000000000.00"
    ∧ calculatePoints ⟨"", "", "", "1.10", [⟨"", "100000000000000000000.00"⟩]⟩
        = -9223372036854775808 := by
  refine ⟨by decide, by decide!, by decide, by decide, by decide, by decide!, by decide!,
    by decide, by decide, by decide!⟩

/-! ## Rule 4 -/

/-- C12. Rule 4: when the total parses, `calculatePoints` is the wrapped sum
of the rules in which Rule 4 counts `5 * floor(n / 2)` for the number `n` of
items, whatever the items are; that is 0 for a receipt with no item or one. -/
theorem calculatePoints_rule4 (r : Receipt) (hparse : (strconv.ParseFloat r.Total).2 = none) :
    calculatePoints r = wrapInt (rule1Points r.Retailer
      + rule2Points (strconv.ParseFloat r.Total).1
      + rule3Points (strconv.ParseFloat r.Total).1
      + 5 * ((r.Items.length / 2 : Nat) : Int)
      + rule5Points r.Items + rule6Points r.PurchaseDate + rule7Points r.PurchaseTime) ∧
    (r.Items.length ≤ 1 → 5 * ((r.Items.length / 2 : Nat) : Int) = 0) := by
  have hp : strconv.ParseFloat r.Total = ((strconv.ParseFloat r.Total).1, none) := by
    rw [← hparse]
  constructor
  · rw [calculatePoints_eq_sum r _ hp]
    unfold rule4Points
    congr 1
    ring
  · intro h
    have : r.Items.length / 2 = 0 := by omega
    rw [this]
    rfl

theorem calculatePoints_rule4_witness :
    calculatePoints ⟨"Target", "2022-01-02", "13:01", "35.35",
      [⟨"ab", "6.49"⟩, ⟨"cd", "12.25"⟩, ⟨"ef", "1.26"⟩, ⟨"gh", "3.35"⟩, ⟨"ij", "12.00"⟩]⟩ = 16 :=
  (calculatePoints_rule4 _ (by decide)).1.trans (by decide!)

/-! ## The registry -/

/-- C15. `getPoints` answers with the not-found error (status 404) exactly
when the identifier is not a key of `pointsStore`, and with the stored points
exactly when it is; there is no default or zero answer for an unknown
identifier. -/
theorem getPoints_unknown_id (st : Stores) (id : String) :
    ((getPoints st id).2 = Response.error 404 "No receipt found for that ID" ↔
      st.pointsStore id = none) ∧
    ((∃ points, (getPoints st id).2 = Response.jsonPoints ⟨points⟩) ↔
      ∃ points, st.pointsStore id = some points) ∧
    (∀ points, st.pointsStore id = some points →
      (getPoints st id).2 = Response.jsonPoints ⟨points⟩) := by
  unfold getPoints
  cases h : st.pointsStore id with
  | none => simp [StatusNotFound]
  | some p => simp

/-- C16, amended. `processReceipt` rejects a submission exactly when the
JSON decoding of its body fails: then it answers with status 400 and leaves
both stores as they were. Whatever decodes is stored under the new
identifier, with its points, and the identifier is returned; the fields of
the receipt are not looked at. -/
theorem processReceipt_accepts_decoded (st : Stores) (id : String) :
    processReceipt st none id = (st, Response.error 400 "Invalid request payload") ∧
    ∀ r : Receipt,
      (processReceipt st (some r) id).2 = Response.jsonID ⟨id⟩ ∧
      (processReceipt st (some r) id).1.receiptStore id = some r ∧
      (processReceipt st (some r) id).1.pointsStore id = some (calculatePoints r) := by
  refine ⟨rfl, fun r => ?_⟩
  simp [processReceipt, mapSet]

/-- C16 as stated fails on a submission whose fields are all ill-formed: an
empty retailer, a purchase date and time that do not parse, a total and a
price that are not numbers. It decodes, so `processReceipt` stores it and
issues the identifier. -/
theorem processReceipt_counterexample :
    time.ParseDate "yesterday" = none ∧
    time.ParseClock "25:61" = none ∧
    (strconv.ParseFloat "abc").2 = some strconv.NumError.ErrSyntax ∧
    (strconv.ParseFloat "free").2 = some strconv.NumError.ErrSyntax ∧
    (processReceipt Stores.empty (some ⟨"", "yesterday", "25:61", "abc", [⟨"x", "free"⟩]⟩)
      "id-1").2 = Response.jsonID ⟨"id-1"⟩ ∧
    (processReceipt Stores.empty (some ⟨"", "yesterday", "25:61", "abc", [⟨"x", "free"⟩]⟩)
      "id-1").1.receiptStore "id-1" = some ⟨"", "yesterday", "25:61", "abc", [⟨"x", "free"⟩]⟩ ∧
    (processReceipt Stores.empty (some ⟨"", "yesterday", "25:61", "abc", [⟨"x", "free"⟩]⟩)
      "id-1").1.pointsStore "id-1" = some 0 := by
  decide

/-- Every handler keeps the two stores in step: the points stored under an
identifier are the points of the receipt stored under it. -/
theorem handle_consistent (st : Stores) (request : Request)
    (h : ∀ id, st.pointsStore id = (st.receiptStore id).map calculatePoints) :
    ∀ id, (handle st request).1.pointsStore id
      = ((handle st request).1.receiptStore id).map calculatePoints := by
  intro id
  cases request with
  | process decoded receiptID =>
    cases decoded with
    | none => exact h id
    | some r =>
      simp only [handle, processReceipt, mapSet]
      by_cases hid : id = receiptID
      · simp [hid]
      · simp [hid, h id]
  | points receiptID =>
    simp only [handle, getPoints]
    split <;> exact h id

theorem serve_consistent (requests : List Request) (st : Stores)
    (h : ∀ id, st.pointsStore id = (st.receiptStore id).map calculatePoints) :
    ∀ id, (serve st requests).pointsStore id
      = ((serve st requests).receiptStore id).map calculatePoints := by
  induction requests generalizing st with
  | nil => exact h
  | cons request rest ih =>
    exact ih (handle st request).1 (handle_consistent st request h)

/-- C17. In every state reached from the two empty stores by a sequence of
`processReceipt` and `getPoints` calls, an identifier is a key of
`receiptStore` exactly when it is a key of `pointsStore`, and the points
stored under it are `calculatePoints` of the receipt stored under it. -/
theorem stores_consistent (requests : List Request) (id : String) :
    (((serve Stores.empty requests).receiptStore id).isSome ↔
      ((serve Stores.empty requests).pointsStore id).isSome) ∧
    (∀ r, (serve Stores.empty requests).receiptStore id = some r →
      (serve Stores.empty requests).pointsStore id = some (calculatePoints r)) := by
  have h := serve_consistent requests Stores.empty (fun _ => rfl) id
  rw [h]
  constructor
  · cases (serve Stores.empty requests).receiptStore id <;> simp
  · intro r hr
    rw [hr]
    rfl

theorem getPoints_stores (st : Stores) (id : String) : (getPoints st id).1 = st := by
  unfold getPoints
  split <;> rfl

theorem processReceipt_other_id (st : Stores) (decoded : Option Receipt) (id other : String)
    (h : other ≠ id) :
    (processReceipt st decoded other).1.receiptStore id = st.receiptStore id ∧
    (processReceipt st decoded other).1.pointsStore id = st.pointsStore id := by
  cases decoded with
  | none => exact ⟨rfl, rfl⟩
  | some r =>
    have h2 : ¬ id = other := fun e => h e.symm
    simp [processReceipt, mapSet, h2]

theorem serve_other_ids (requests : List Request) (st : Stores) (id : String)
    (h : ∀ decoded other, Request.process decoded other ∈ requests → other ≠ id) :
    (serve st requests).receiptStore id = st.receiptStore id ∧
    (serve st requests).pointsStore id = st.pointsStore id := by
  induction requests generalizing st with
  | nil => exact ⟨rfl, rfl⟩
  | cons request rest ih =>
    have hrest := ih (handle st request).1
      (fun d o hmem => h d o (List.mem_cons_of_mem _ hmem))
    have hstep : (handle st request).1.receiptStore id = st.receiptStore id ∧
        (handle st request).1.pointsStore id = st.pointsStore id := by
      cases request with
      | process decoded other =>
        exact processReceipt_other_id st decoded id other (h decoded other (List.mem_cons_self _ _))
      | points other =>
        show (getPoints st other).1.receiptStore id = _ ∧ (getPoints st other).1.pointsStore id = _
        rw [getPoints_stores]
        exact ⟨rfl, rfl⟩
    show (serve (handle st request).1 rest).receiptStore id = _ ∧
      (serve (handle st request).1 rest).pointsStore id = _
    rw [hrest.1, hrest.2]
    exact hstep

/-- C18. Stored entries are not changed by later operations: `getPoints`
returns the stores as it got them, and after any sequence of requests in
which no `processReceipt` issues the identifier `id` again, the receipt and
the points stored under `id` are what they were, so `getPoints` gives the
same answer for `id` as before. -/
theorem stored_entries_unchanged (st : Stores) (id : String) (requests : List Request)
    (hother : ∀ decoded other, Request.process decoded other ∈ requests → other ≠ id) :
    (∀ other, (getPoints st other).1 = st) ∧
    (serve st requests).receiptStore id = st.receiptStore id ∧
    (serve st requests).pointsStore id = st.pointsStore id ∧
    (getPoints (serve st requests) id).2 = (getPoints st id).2 := by
  obtain ⟨h1, h2⟩ := serve_other_ids requests st id hother
  refine ⟨getPoints_stores st, h1, h2, ?_⟩
  unfold getPoints
  rw [h2]
  cases st.pointsStore id <;> rfl

theorem stored_entries_unchanged_witness :
    (getPoints
      (serve (serve Stores.empty
          [Request.process (some ⟨"Target", "2022-01-01", "13:01", "35.35", []⟩) "a"])
        [Request.points "a",
         Request.process (some ⟨"Walgreens", "2022-01-02", "08:13", "2.65", []⟩) "b",
         Request.process none "c", Request.points "b", Request.points "zz"]) "a").2
      = Response.jsonPoints ⟨12⟩ :=
  (stored_entries_unchanged
    (serve Stores.empty
      [Request.process (some ⟨"Target", "2022-01-01", "13:01", "35.35", []⟩) "a"]) "a"
    [Request.points "a",
     Request.process (some ⟨"Walgreens", "2022-01-02", "08:13", "2.65", []⟩) "b",
     Request.process none "c", Request.points "b", Request.points "zz"]
    (by
      intro decoded other hmem
      simp at hmem
      rcases hmem with h | h <;> rw [h.2] <;> decide)).2.2.2.trans (by decide!)

/-! ## Rule 6 -/

theorem calendarDaysIn_eq (year month : Nat) (h1 : 1 ≤ month) (h12 : month ≤ 12) :
    calendarDaysIn year month = time.daysIn month year := by
  unfold calendarDaysIn time.daysIn time.isLeap
  have : month = 1 ∨ month = 2 ∨ month = 3 ∨ month = 4 ∨ month = 5 ∨ month = 6 ∨ month = 7 ∨
      month = 8 ∨ month = 9 ∨ month = 10 ∨ month = 11 ∨ month = 12 := by omega
  rcases this with h | h | h | h | h | h | h | h | h | h | h | h <;> subst h <;> simp

/-- What `time.ParseDate` accepts, taken apart. -/
theorem ParseDate_some (s : String) (d : time.Date) (h : time.ParseDate s = some d) :
    ∃ y1 y2 y3 y4 m1 m2 d1 d2,
      s.toList = [y1, y2, y3, y4, '-', m1, m2, '-', d1, d2] ∧
      allDigits [y1, y2, y3, y4, m1, m2, d1, d2] = true ∧
      d.year = ((strconv.digitVal y1 * 10 + strconv.digitVal y2) * 10 + strconv.digitVal y3) * 10
        + strconv.digitVal y4 ∧
      d.month = strconv.digitVal m1 * 10 + strconv.digitVal m2 ∧
      d.day = strconv.digitVal d1 * 10 + strconv.digitVal d2 ∧
      1 ≤ d.month ∧ d.month ≤ 12 ∧ 1 ≤ d.day ∧ d.day ≤ time.daysIn d.month d.year := by
  unfold time.ParseDate at h
  split at h
  · rename_i y1 y2 y3 y4 rest hs
    split at h
    · simp at h
    · rename_i hdig
      have hy := not_not.mp hdig
      split at h
      · rename_i rest1
        split at h
        · simp at h
        · rename_i month rest2 hg1
          split at h
          · simp at h
          · rename_i hmonth
            split at h
            · rename_i rest3
              split at h
              · simp at h
              · rename_i day rest4 hg2
                split at h
                · simp at h
                · rename_i hrest
                  dsimp only at h
                  split at h
                  · simp at h
                  · rename_i hday
                    simp only [Option.some.injEq] at h
                    subst h
                    have hrest4 : rest4 = [] := by simpa using hrest
                    subst hrest4
                    obtain ⟨m1, m2, hr1, hm1, hm2, hmv⟩ := getnum_fixed _ _ _ hg1
                    obtain ⟨d1, d2, hr3, hd1, hd2, hdv⟩ := getnum_fixed _ _ _ hg2
                    subst hr1 hr3
                    refine ⟨y1, y2, y3, y4, m1, m2, d1, d2, hs, ?_, rfl, hmv, hdv, ?_, ?_, ?_, ?_⟩
                    · simp [allDigits, hy.1, hy.2.1, hy.2.2.1, hy.2.2.2, hm1, hm2, hd1, hd2]
                    · show 1 ≤ month
                      omega
                    · show month ≤ 12
                      omega
                    · show 1 ≤ day
                      omega
                    · show day ≤ time.daysIn month (((strconv.digitVal y1 * 10
                        + strconv.digitVal y2) * 10 + strconv.digitVal y3) * 10 + strconv.digitVal y4)
                      omega
            · simp at h
      · simp at h
  · simp at h

theorem ParseDate_odd (s : String) (d : time.Date) (h : time.ParseDate s = some d)
    (hodd : d.day % 2 ≠ 0) : isOddDayDate s = true := by
  obtain ⟨y1, y2, y3, y4, m1, m2, d1, d2, hs, hdig, hy, hm, hd, h1, h2, h3, h4⟩ :=
    ParseDate_some s d h
  unfold isOddDayDate
  rw [hs]
  simp only [hdig, Bool.true_and, decide_True, Bool.and_eq_true, decide_eq_true_eq]
  rw [← hm, ← hd, ← hy, calendarDaysIn_eq _ _ h1 h2]
  exact ⟨⟨⟨h1, h2⟩, h3, h4⟩, by omega⟩

theorem ParseDate_of_isOddDayDate (s : String) (h : isOddDayDate s = true) :
    ∃ d, time.ParseDate s = some d ∧ d.day % 2 ≠ 0 := by
  unfold isOddDayDate at h
  split at h
  · rename_i y1 y2 y3 y4 dash1 m1 m2 dash2 d1 d2 hs
    simp only [Bool.and_eq_true, decide_eq_true_eq] at h
    obtain ⟨⟨⟨⟨⟨hdig, e1⟩, e2⟩, hmonth⟩, hday⟩, hodd⟩ := h
    subst e1 e2
    simp only [allDigits, List.all_cons, List.all_nil, Bool.and_true, Bool.and_eq_true] at hdig
    obtain ⟨hy1, hy2, hy3, hy4, hm1, hm2, hd1, hd2⟩ := hdig
    rw [calendarDaysIn_eq _ _ hmonth.1 hmonth.2] at hday
    have g1 : time.getnum (m1 :: m2 :: '-' :: [d1, d2]) true
        = some (strconv.digitVal m1 * 10 + strconv.digitVal m2, '-' :: [d1, d2]) := by
      simp [time.getnum, hm1, hm2]
    have g2 : time.getnum [d1, d2] true
        = some (strconv.digitVal d1 * 10 + strconv.digitVal d2, []) := by
      simp [time.getnum, hd1, hd2]
    suffices hsuff : ∀ year month day : Nat, 1 ≤ month ∧ month ≤ 12 →
        (1 ≤ day ∧ day ≤ time.daysIn month year) → day % 2 = 1 →
        time.getnum (m1 :: m2 :: '-' :: [d1, d2]) true = some (month, '-' :: [d1, d2]) →
        time.getnum [d1, d2] true = some (day, []) →
        year = ((strconv.digitVal y1 * 10 + strconv.digitVal y2) * 10 + strconv.digitVal y3) * 10
          + strconv.digitVal y4 →
        ∃ d, time.ParseDate s = some d ∧ d.day % 2 ≠ 0 from
      hsuff _ _ _ hmonth hday hodd g1 g2 rfl
    intro year month day hmonth hday hodd g1 g2 hyear
    refine ⟨⟨year, month, day⟩, ?_, by
      show day % 2 ≠ 0
      omega⟩
    have c1 : ¬ (month = 0 ∨ 12 < month) := by omega
    have c2 : ¬ (day < 1 ∨ time.daysIn month year < day) := by omega
    have c3 : time.isDigit y1 = true ∧ time.isDigit y2 = true ∧ time.isDigit y3 = true ∧
        time.isDigit y4 = true := ⟨hy1, hy2, hy3, hy4⟩
    unfold time.ParseDate
    rw [hs]
    simp only [c3, and_self, not_true_eq_false, if_false, ← hyear, g1, c1, g2, ne_eq, c2]
  · simp at h

/-- Rule 6 gives its 6 points exactly to the valid dates with an odd day. -/
theorem rule6Points_eq (s : String) : rule6Points s = if isOddDayDate s = true then 6 else 0 := by
  unfold rule6Points
  by_cases h : isOddDayDate s = true
  · obtain ⟨d, hd, hodd⟩ := ParseDate_of_isOddDayDate s h
    rw [hd, if_pos h]
    simp [hodd]
  · rw [if_neg h]
    split
    · rename_i d hd
      split
      · rename_i hodd
        exact absurd (ParseDate_odd s d hd hodd) h
      · rfl
    · rfl

/-- C11. Rule 6: when the total parses, `calculatePoints` is the wrapped sum
of the rules in which Rule 6 counts 6 exactly when the purchase date is a
valid `YYYY-MM-DD` calendar date with an odd day of the month; an even day
and a purchase date that does not parse count 0 there, and Rule 7 is scored
all the same. -/
theorem calculatePoints_rule6 (r : Receipt) (hparse : (strconv.ParseFloat r.Total).2 = none) :
    calculatePoints r = wrapInt (rule1Points r.Retailer
      + rule2Points (strconv.ParseFloat r.Total).1
      + rule3Points (strconv.ParseFloat r.Total).1
      + rule4Points r.Items + rule5Points r.Items
      + (if isOddDayDate r.PurchaseDate = true then 6 else 0)
      + rule7Points r.PurchaseTime) := by
  have hp : strconv.ParseFloat r.Total = ((strconv.ParseFloat r.Total).1, none) := by
    rw [← hparse]
  rw [calculatePoints_eq_sum r _ hp, rule6Points_eq]

theorem calculatePoints_rule6_witness :
    calculatePoints ⟨"Target", "2024-02-29", "14:01", "35.35", []⟩ = 22 ∧
    calculatePoints ⟨"Target", "2023-02-29", "14:01", "35.35", []⟩ = 16 :=
  ⟨(calculatePoints_rule6 ⟨"Target", "2024-02-29", "14:01", "35.35", []⟩ (by decide)).trans
      (by decide!),
   (calculatePoints_rule6 ⟨"Target", "2023-02-29", "14:01", "35.35", []⟩ (by decide)).trans
      (by decide!)⟩

/-! ## Rules 2 and 3 together -/

namespace Float64

/-- Converting a natural number gives an infinity or a value that is an
integer: a non-negative exponent, or a mantissa that the power of two divides. -/
theorem ofFrac_den_one_whole (neg : Bool) (n : Nat) :
    ofFrac neg n 1 = inf neg ∨
    ∃ m e, ofFrac neg n 1 = finite neg m e ∧ (0 ≤ e ∨ 2 ^ (-e).toNat ∣ m) := by
  by_cases h0 : n = 0
  · subst h0
    exact Or.inr ⟨0, -1074, by simp [ofFrac], Or.inr (dvd_zero _)⟩
  · obtain ⟨e, m, h1, h2, h3, h4, h5, h6, h7, h8⟩ := ofFrac_spec neg n 1 (by omega) (by decide)
    by_cases hneg : e < 0
    · obtain ⟨s1, s2⟩ := scale_of_neg n 1 e hneg
      rw [s1, s2] at h2 h6
      have hm : m = n * 2 ^ (-e).toNat := by
        have := h6 (one_dvd _)
        rwa [Nat.div_one] at this
      have hne : m ≠ 2 ^ 53 := by omega
      have h971 : ¬ (971 < e) := by omega
      rw [if_neg hne, if_neg h971] at h8
      exact Or.inr ⟨m, e, h8, Or.inr ⟨n, by rw [hm]; ring⟩⟩
    · rw [h8]
      split
      · split
        · exact Or.inl rfl
        · exact Or.inr ⟨2 ^ 52, e + 1, rfl, Or.inl (by omega)⟩
      · split
        · exact Or.inl rfl
        · exact Or.inr ⟨m, e, rfl, Or.inl (by omega)⟩

/-- A value equal to an integer value is an integer. -/
theorem whole_of_eq (n1 n2 : Bool) (m1 m2 : Nat) (e1 e2 : Int)
    (heq : eq (finite n1 m1 e1) (finite n2 m2 e2) = true)
    (hw : 0 ≤ e2 ∨ 2 ^ (-e2).toNat ∣ m2) :
    0 ≤ e1 ∨ 2 ^ (-e1).toNat ∣ m1 := by
  by_cases he1 : 0 ≤ e1
  · exact Or.inl he1
  · right
    simp only [eq] at heq
    split at heq
    · rename_i h0
      rw [h0.1]
      exact dvd_zero _
    · split at heq
      · simp only [align, decide_eq_true_eq] at heq
        by_cases hle : e1 ≤ e2
        · -- the common exponent is e1
          have hmin : min e1 e2 = e1 := by omega
          rw [hmin] at heq
          have z : (e1 - e1).toNat = 0 := by omega
          rw [z, pow_zero, Nat.mul_one] at heq
          by_cases he2 : 0 ≤ e2
          · have hk : (e2 - e1).toNat = e2.toNat + (-e1).toNat := by omega
            rw [heq, hk, pow_add]
            exact ⟨m2 * 2 ^ e2.toNat, by ring⟩
          · obtain ⟨j, hj⟩ := hw.resolve_left he2
            have hk : (-e1).toNat = (-e2).toNat + (e2 - e1).toNat := by omega
            rw [heq, hj, hk, pow_add]
            exact ⟨j, by ring⟩
        · -- the common exponent is e2, below e1
          have hmin : min e1 e2 = e2 := by omega
          rw [hmin] at heq
          have z : (e2 - e2).toNat = 0 := by omega
          rw [z, pow_zero, Nat.mul_one] at heq
          rcases hw with hw | ⟨j, hj⟩
          · omega
          · have hk : (-e2).toNat = (-e1).toNat + (e1 - e2).toNat := by omega
            rw [hj, hk, pow_add] at heq
            have h2 : m1 * 2 ^ (e1 - e2).toNat = (2 ^ (-e1).toNat * j) * 2 ^ (e1 - e2).toNat := by
              rw [heq]; ring
            have h3 := Nat.eq_of_mul_eq_mul_right (Nat.two_pow_pos _) h2
            exact ⟨j, h3⟩
      · simp at heq

end Float64

open Float64 in
/-- Rule 3 gives its 25 points to every finite value that is an integer. -/
theorem rule3Points_of_whole (n : Bool) (m : Nat) (e : Int)
    (hw : 0 ≤ e ∨ 2 ^ (-e).toNat ∣ m) : rule3Points (finite n m e) = 25 := by
  by_cases hbig : -1 ≤ e
  · -- every multiple of one half is a multiple of one quarter
    unfold rule3Points
    rw [quarter_eq]
    have hne : (2 : Nat) ^ 52 ≠ 0 := by decide
    simp only [math.Mod, hne, if_false, eq_zero_iff, decide_eq_true_eq]
    have hmin : min e (-((54 : Nat) : Int)) = -((54 : Nat) : Int) := by omega
    have hz : (-((54 : Nat) : Int) - -((54 : Nat) : Int)).toNat = 0 := by omega
    have hk : (e - -((54 : Nat) : Int)).toNat = 52 + (e + 2).toNat := by omega
    have hmod : (align m e (2 ^ 52) (-((54 : Nat) : Int))).1
        % (align m e (2 ^ 52) (-((54 : Nat) : Int))).2 = 0 := by
      simp only [align, hmin, hz, hk, pow_zero, Nat.mul_one]
      apply Nat.mod_eq_zero_of_dvd
      exact ⟨m * 2 ^ (e + 2).toNat, by rw [pow_add]; ring⟩
    rw [if_pos hmod]
  · have he : e = -(((-e).toNat : Nat) : Int) := by omega
    have hk : 2 ≤ (-e).toNat := by omega
    have hdiv : 2 ^ ((-e).toNat - 2) ∣ m := by
      rcases hw with hw | hw
      · omega
      · exact dvd_trans (Nat.pow_dvd_pow 2 (by omega)) hw
    rw [he, rule3Points_finite n m (-e).toNat hk, if_pos hdiv]

open Float64 in
/-- Rule 2 gives its 50 points only to finite values that are integers. -/
theorem whole_of_rule2Points (t : Float64) (h : rule2Points t = 50) :
    ∃ n m e, t = finite n m e ∧ (0 ≤ e ∨ 2 ^ (-e).toNat ∣ m) := by
  unfold rule2Points at h
  split at h
  · rename_i heq
    cases t with
    | finite n m e =>
      refine ⟨n, m, e, rfl, ?_⟩
      unfold ofInt at heq
      rcases ofFrac_den_one_whole (decide (toInt (finite n m e) < 0))
        (toInt (finite n m e)).natAbs with hinf | ⟨m2, e2, hfin, hw⟩
      · rw [hinf] at heq
        simp [eq] at heq
      · rw [hfin] at heq
        exact whole_of_eq _ _ _ _ _ _ heq hw
    | inf n =>
      have hmin : ofInt minInt = finite true (2 ^ 52) 11 := by decide!
      change eq (inf n) (ofInt minInt) = true at heq
      rw [hmin] at heq
      simp [eq] at heq
    | nan => simp [eq] at heq
  · simp at h

/-- C20. Rules 2 and 3 are not independent: when the total parses and Rule 2
awards its 50 points, Rule 3 awards its 25 points as well, so the two rules
together never add exactly 50, and the score is the wrapped sum of the other
rules and 75. -/
theorem calculatePoints_rule2_implies_rule3 (r : Receipt)
    (hparse : (strconv.ParseFloat r.Total).2 = none) :
    (rule2Points (strconv.ParseFloat r.Total).1 = 50 →
      rule3Points (strconv.ParseFloat r.Total).1 = 25 ∧
      calculatePoints r = wrapInt (rule1Points r.Retailer + 75
        + rule4Points r.Items + rule5Points r.Items + rule6Points r.PurchaseDate
        + rule7Points r.PurchaseTime)) ∧
    rule2Points (strconv.ParseFloat r.Total).1 + rule3Points (strconv.ParseFloat r.Total).1 ≠ 50 := by
  have hp : strconv.ParseFloat r.Total = ((strconv.ParseFloat r.Total).1, none) := by
    rw [← hparse]
  have himp : rule2Points (strconv.ParseFloat r.Total).1 = 50 →
      rule3Points (strconv.ParseFloat r.Total).1 = 25 := by
    intro h2
    obtain ⟨n, m, e, ht, hw⟩ := whole_of_rule2Points _ h2
    rw [ht]
    exact rule3Points_of_whole n m e hw
  constructor
  · intro h2
    have h3 := himp h2
    refine ⟨h3, ?_⟩
    rw [calculatePoints_eq_sum r _ hp, h2, h3]
    congr 1
  · intro hsum
    by_cases h2 : rule2Points (strconv.ParseFloat r.Total).1 = 50
    · rw [h2, himp h2] at hsum
      simp at hsum
    · have h0 : rule2Points (strconv.ParseFloat r.Total).1 = 0 := by
        unfold rule2Points at h2 ⊢
        split_ifs at h2 ⊢
        · exact absurd rfl h2
        · rfl
      rw [h0] at hsum
      unfold rule3Points at hsum
      split at hsum <;> simp at hsum

theorem calculatePoints_rule2_implies_rule3_witness :
    calculatePoints ⟨"", "", "", "9.00", []⟩ = 75 :=
  ((calculatePoints_rule2_implies_rule3 ⟨"", "", "", "9.00", []⟩ (by decide)).1
    (by decide!)).2.trans (by decide)

/-! ## The sign of the score -/

/-- An item whose price is a decimal below `2^44` scores between 0 and `2^42`. -/
theorem itemPoints_bounds (item : Item) (h : decimalBelow item.Price (2 ^ 44)) :
    0 ≤ itemPoints item ∧ itemPoints item ≤ 2 ^ 42 := by
  obtain ⟨ip, fp, hwf, hfp, htext, hlt⟩ := h
  have hpts : itemPoints item
      = (((digitsValue (ip ++ fp) + 5 * 10 ^ fp.length - 1) / (5 * 10 ^ fp.length) : Nat) : Int) :=
    itemPoints_decimal item.Price ip fp hwf hfp htext hlt
  rw [hpts]
  refine ⟨Int.natCast_nonneg _, ?_⟩
  have hD : 0 < 10 ^ fp.length := Nat.pos_pow_of_pos _ (by decide)
  have hlt2 : (digitsValue (ip ++ fp) + 5 * 10 ^ fp.length - 1) / (5 * 10 ^ fp.length)
      < 2 ^ 42 + 1 := by
    rw [Nat.div_lt_iff_lt_mul (by omega)]
    generalize 10 ^ fp.length = D at hD hlt
    generalize digitsValue (ip ++ fp) = v at hlt
    omega
  have hcast : (((digitsValue (ip ++ fp) + 5 * 10 ^ fp.length - 1) / (5 * 10 ^ fp.length) : Nat) : Int)
      < ((2 ^ 42 + 1 : Nat) : Int) := Int.ofNat_lt.mpr hlt2
  push_cast at hcast
  omega

/-- Rule 5 over items with decimal prices below `2^44`. -/
theorem rule5Points_bounds (items : List Item)
    (h : ∀ item ∈ items, decimalBelow item.Price (2 ^ 44)) :
    0 ≤ rule5Points items ∧ rule5Points items ≤ (items.length : Int) * 2 ^ 42 := by
  induction items with
  | nil => simp [rule5Points]
  | cons item rest ih =>
    have hrest := ih (fun i hi => h i (List.mem_cons_of_mem _ hi))
    have hitem := itemPoints_bounds item (h item (List.mem_cons_self _ _))
    have hcons : rule5Points (item :: rest)
        = (if itemQualifies item then itemPoints item else 0) + rule5Points rest := by
      simp [rule5Points]
    rw [hcons, List.length_cons]
    push_cast
    split_ifs <;> constructor <;> nlinarith [hrest.1, hrest.2, hitem.1, hitem.2]

/-- The score of a receipt of reasonable size with decimal item prices below
`2^44` is not negative. -/
theorem calculatePoints_nonneg (r : Receipt)
    (hretailer : r.Retailer.length < 2 ^ 62) (hitems : r.Items.length < 2 ^ 19)
    (hprices : ∀ item ∈ r.Items, decimalBelow item.Price (2 ^ 44)) :
    0 ≤ calculatePoints r := by
  have h1 : 0 ≤ rule1Points r.Retailer ∧ rule1Points r.Retailer < 2 ^ 62 := by
    rw [rule1Points_eq]
    have h1 : (r.Retailer.toList.filter Char.isAlphanum).length ≤ r.Retailer.toList.length :=
      List.length_filter_le _ _
    have h2 : r.Retailer.toList.length = r.Retailer.length := rfl
    omega
  by_cases herr : (strconv.ParseFloat r.Total).2 = none
  · have hp : strconv.ParseFloat r.Total = ((strconv.ParseFloat r.Total).1, none) := by
      rw [← herr]
    have h2 : 0 ≤ rule2Points (strconv.ParseFloat r.Total).1
        ∧ rule2Points (strconv.ParseFloat r.Total).1 ≤ 50 := by
      unfold rule2Points; split_ifs <;> omega
    have h3 : 0 ≤ rule3Points (strconv.ParseFloat r.Total).1
        ∧ rule3Points (strconv.ParseFloat r.Total).1 ≤ 25 := by
      unfold rule3Points; split_ifs <;> omega
    have h4 : 0 ≤ rule4Points r.Items ∧ rule4Points r.Items ≤ 5 * 2 ^ 18 := by
      unfold rule4Points; omega
    have h5 := rule5Points_bounds r.Items hprices
    have h5b : rule5Points r.Items ≤ 2 ^ 61 := by
      have : (r.Items.length : Int) < 2 ^ 19 := by exact_mod_cast hitems
      omega
    have h6 : 0 ≤ rule6Points r.PurchaseDate ∧ rule6Points r.PurchaseDate ≤ 6 := by
      rw [rule6Points_eq]; split_ifs <;> omega
    have h7 : 0 ≤ rule7Points r.PurchaseTime ∧ rule7Points r.PurchaseTime ≤ 10 := by
      rw [rule7Points_eq]; split_ifs <;> omega
    rw [calculatePoints_eq_sum r _ hp, wrapInt_of_inRange]
    · omega
    · unfold minInt; omega
    · unfold maxInt; omega
  · rw [calculatePoints_of_error r herr, wrapInt_of_inRange]
    · exact h1.1
    · unfold minInt; omega
    · unfold maxInt; omega

/-- The result of a Go `int` operation is at most the greatest `int`. -/
theorem wrapInt_le_maxInt (x : Int) : wrapInt x ≤ maxInt := by
  unfold wrapInt maxInt
  omega

/-- C13 as stated fails: a valid receipt can score below zero: this one has a
non-empty retailer, a valid date and time, and a total and a price that are
non-negative decimals with 2 fractional digits, and its score is
`-9223372036854775796`, the price being too large for the conversion to `int`. -/
theorem calculatePoints_negative_counterexample :
    "Target" ≠ "" ∧ (time.ParseDate "2022-01-01").isSome = true
    ∧ (time.ParseClock "13:01").isSome = true
    ∧ wellFormedDecimal "35".toList "35".toList = true
    ∧ decimalText "35".toList "35".toList = "35.35"
    ∧ wellFormedDecimal "100000000000000000000".toList "00".toList = true
    ∧ decimalText "100000000000000000000".toList "00".toList = "100000000000000000000.00"
    ∧ calculatePoints ⟨"Target", "2022-01-01", "13:01", "35.35",
        [⟨"", "100000000000000000000.00"⟩]⟩ = -9223372036854775796 := by
  refine ⟨by decide, by decide, by decide, by decide, by decide, by decide, by decide, ?_⟩
  decide!

/-- C13, amended. The score is not negative for every receipt whose item
prices are non-negative decimals with at most 2 fractional digits and a value
below `2^44`, with fewer than `2^19` items and a retailer name of fewer than
`2^62` characters; the retailer, the date, the time and the total need not be
valid for this. -/
theorem calculatePoints_valid_nonneg (r : Receipt)
    (hretailer : r.Retailer.length < 2 ^ 62) (hitems : r.Items.length < 2 ^ 19)
    (hprices : ∀ item ∈ r.Items, decimalBelow item.Price (2 ^ 44)) :
    0 ≤ calculatePoints r ∧ calculatePoints r ≤ maxInt := by
  refine ⟨calculatePoints_nonneg r hretailer hitems hprices, ?_⟩
  by_cases herr : (strconv.ParseFloat r.Total).2 = none
  · have hp : strconv.ParseFloat r.Total = ((strconv.ParseFloat r.Total).1, none) := by
      rw [← herr]
    rw [calculatePoints_eq_sum r _ hp]
    exact wrapInt_le_maxInt _
  · rw [calculatePoints_of_error r herr]
    exact wrapInt_le_maxInt _

theorem calculatePoints_valid_nonneg_witness :
    0 ≤ calculatePoints ⟨"Target", "2022-01-01", "13:01", "35.35",
        [⟨"Pepsi", "1.25"⟩, ⟨"Dasani", "1.40"⟩]⟩
    ∧ calculatePoints ⟨"Target", "2022-01-01", "13:01", "35.35",
        [⟨"Pepsi", "1.25"⟩, ⟨"Dasani", "1.40"⟩]⟩ ≤ maxInt :=
  calculatePoints_valid_nonneg _ (by decide) (by decide) (by
    intro item hmem
    simp only [List.mem_cons, List.mem_singleton, List.not_mem_nil, or_false] at hmem
    rcases hmem with h | h
    · exact ⟨"1".toList, "25".toList, by decide, by decide, by rw [h]; decide, by decide⟩
    · exact ⟨"1".toList, "40".toList, by decide, by decide, by rw [h]; decide, by decide⟩)

/-- C14 as stated fails: a reachable state holds negative points: after one
`processReceipt` of a receipt with the price `-100.00` the points stored are
`-8`, and after one with a price too large for `int` they are
`-9223372036854775796`. -/
theorem pointsStore_negative_counterexample :
    (serve Stores.empty [Request.process (some ⟨"Target", "2022-01-01", "13:01", "35.35",
        [⟨"", "-100.00"⟩]⟩) "id-1"]).pointsStore "id-1" = some (-8)
    ∧ (serve Stores.empty [Request.process (some ⟨"Target", "2022-01-01", "13:01", "35.35",
        [⟨"", "100000000000000000000.00"⟩]⟩) "id-1"]).pointsStore "id-1"
      = some (-9223372036854775796) := by
  constructor <;> decide!

/-- C14, amended. In every state reachable from the empty stores by
`processReceipt` and `getPoints` calls, the points stored under an identifier
are the score of the receipt stored under it, and they are not negative when
that receipt has item prices that are non-negative decimals with at most 2
fractional digits and a value below `2^44`, fewer than `2^19` items and a
retailer name of fewer than `2^62` characters. -/
theorem pointsStore_nonneg (requests : List Request) (id : String) (r : Receipt)
    (hstored : (serve Stores.empty requests).receiptStore id = some r)
    (hretailer : r.Retailer.length < 2 ^ 62) (hitems : r.Items.length < 2 ^ 19)
    (hprices : ∀ item ∈ r.Items, decimalBelow item.Price (2 ^ 44)) :
    ∃ points, (serve Stores.empty requests).pointsStore id = some points
      ∧ points = calculatePoints r ∧ 0 ≤ points := by
  refine ⟨calculatePoints r, ?_, rfl, calculatePoints_nonneg r hretailer hitems hprices⟩
  rw [serve_consistent requests Stores.empty (fun _ => rfl) id, hstored]
  rfl

theorem pointsStore_nonneg_witness :
    ∃ points, (serve Stores.empty [Request.process (some ⟨"Target", "2022-01-01", "13:01",
        "35.35", [⟨"", "100.00"⟩]⟩) "id-1", Request.points "id-1"]).pointsStore "id-1"
        = some points
      ∧ points = calculatePoints ⟨"Target", "2022-01-01", "13:01", "35.35", [⟨"", "100.00"⟩]⟩
      ∧ 0 ≤ points :=
  pointsStore_nonneg _ "id-1" _ (by decide) (by decide) (by decide) (by
    intro item hmem
    simp only [List.mem_singleton] at hmem
    exact ⟨"100".toList, "00".toList, by decide, by decide, by rw [hmem]; decide, by decide⟩)
